import Mathlib

/-!
Verification development for the Nexel proxy.

The definitions below are a shallow embedding of the Rust sources:
`src/protocol.rs` (the unified request parser and reply writer),
`src/rule.rs` (the routing engine) and `src/connection.rs` (the
connection orchestrator's dial decision).  Bytes are modelled as `Nat`,
Rust `String`s as their UTF-8 byte sequences (`List Nat`), machine
integers as `Nat` with explicit `% 2^w` where wrap-around matters.
External libraries (the `url` crate, DNS resolution, the `ipnetwork`
CIDR test and the MaxMind GeoIP reader) are abstracted as explicit
function parameters; everything translated from repository code follows
the Rust control flow statement by statement.
-/

deriving instance DecidableEq for Except

set_option maxRecDepth 10000

namespace Nexel

/-- Error enum from `src/error.rs` (variants relevant to the parser and
orchestrator), plus a `panicked` marker modelling a Rust `unwrap` on
`None` on paths the source leaves to panic. -/
inductive Err where
  | incomplete
  | vnUnsupported (n : Nat)
  | unknownCmd (n : Nat)
  | addrTypeUnsupported (n : Nat)
  | notImplemented
  | ioErr
  | other (msg : String)
  | panicked
deriving DecidableEq, Repr

/-- Protocol dialect, `Ver` in `src/protocol.rs`. -/
inductive Ver where
  | v4
  | v5
  | http
deriving DecidableEq, Repr

/-- Request command, `ReqCmd` in `src/protocol.rs`. -/
inductive ReqCmd where
  | connect
  | bind
  | udp
deriving DecidableEq, Repr

/-- Translation of `ReqCmd::from_u8`. -/
def ReqCmd.fromU8 (n : Nat) : Option ReqCmd :=
  if n = 1 then some .connect
  else if n = 2 then some .bind
  else if n = 3 then some .udp
  else none

/-- Address-type tag, `AType` in `src/protocol.rs`. -/
inductive AType where
  | ipv4
  | domain
  | ipv6
deriving DecidableEq, Repr

/-- Wire value of an `AType` (`addr.0 as u8`). -/
def AType.toU8 : AType → Nat
  | .ipv4 => 1
  | .domain => 3
  | .ipv6 => 4

/-- IP addresses: `IpAddr::V4(Ipv4Addr::from(u32))` carries its `u32`,
`IpAddr::V6(Ipv6Addr::from(u128))` carries its `u128`. -/
inductive IpAddr where
  | v4 (a : Nat)
  | v6 (a : Nat)
deriving DecidableEq, Repr

/-- Canonical request record, `Request` in `src/protocol.rs`.  `raw` is
the byte buffer accumulated by the parser's `BufReader`. -/
structure Request where
  ver : Ver
  cmd : ReqCmd
  rsv : Nat
  dst_domain : Option (List Nat)
  dst_addr : Option IpAddr
  dst_port : Nat
  a_type : AType
  raw : List Nat
deriving DecidableEq, Repr

/-- SOCKS5 auth negotiation frame, `AuthReq` in `src/protocol.rs`. -/
structure AuthReq where
  methods : List Nat
deriving DecidableEq, Repr

/-- Parser output frame, `ReqFrame` in `src/protocol.rs`. -/
inductive ReqFrame where
  | auth (a : AuthReq)
  | req (r : Request)
deriving DecidableEq, Repr

/-- Joint state of the `Cursor` (`rem`, the bytes not yet consumed) and
the raw-capture `BufReader` (`raw`, every byte consumed so far) used by
`parse_req` in `src/protocol.rs`. -/
structure PState where
  rem : List Nat
  raw : List Nat
deriving DecidableEq, Repr

/-- Big-endian value of a byte list (how `get_u16`/`get_u32`/`get_u128`
assemble their results). -/
def beVal (bs : List Nat) : Nat :=
  bs.foldl (fun a b => a * 256 + b) 0

/-- Translation of `BufReader::get_u8`: fail `Incomplete` on an empty
cursor, otherwise consume one byte and append it to the raw buffer. -/
def getU8 (s : PState) : Except Err (Nat × PState) :=
  match s.rem with
  | [] => .error .incomplete
  | b :: rest => .ok (b, ⟨rest, s.raw ++ [b]⟩)

/-- Translation of `BufReader::get_u16`: fail `Incomplete` when fewer
than 2 bytes remain, else consume 2 big-endian bytes. -/
def getU16 (s : PState) : Except Err (Nat × PState) :=
  if s.rem.length < 2 then .error .incomplete
  else .ok (beVal (s.rem.take 2), ⟨s.rem.drop 2, s.raw ++ s.rem.take 2⟩)

/-- Translation of `BufReader::get_u32`: fail `Incomplete` when fewer
than 4 bytes remain, else consume 4 big-endian bytes. -/
def getU32 (s : PState) : Except Err (Nat × PState) :=
  if s.rem.length < 4 then .error .incomplete
  else .ok (beVal (s.rem.take 4), ⟨s.rem.drop 4, s.raw ++ s.rem.take 4⟩)

/-- Translation of `BufReader::get_u128`.  The source guards with
`src.remaining() < 128` (not 16) and then consumes the 16 bytes of a
`u128`; the embedding reproduces that check verbatim. -/
def getU128 (s : PState) : Except Err (Nat × PState) :=
  if s.rem.length < 128 then .error .incomplete
  else .ok (beVal (s.rem.take 16), ⟨s.rem.drop 16, s.raw ++ s.rem.take 16⟩)

/-- Inner loop of `BufReader::get_n_bytes`: `n` successive `get_u8`
calls accumulated in order. -/
def getNLoop (n : Nat) (s : PState) (acc : List Nat) : Except Err (List Nat × PState) :=
  match n with
  | 0 => .ok (acc, s)
  | n + 1 =>
    match getU8 s with
    | .error e => .error e
    | .ok (b, s') => getNLoop n s' (acc ++ [b])

/-- Translation of `BufReader::get_n_bytes`: fail `Incomplete` when
fewer than `n` bytes remain, else read `n` bytes one at a time. -/
def getNBytes (n : Nat) (s : PState) : Except Err (List Nat × PState) :=
  if s.rem.length < n then .error .incomplete
  else getNLoop n s []

/-- Behaviour of Rust's `BufRead::read_until` on a cursor: the bytes up
to and including the first occurrence of `c`, or all remaining bytes
when `c` does not occur. -/
def takeUntilIncl (c : Nat) : List Nat → List Nat
  | [] => []
  | b :: rest => if b = c then [b] else b :: takeUntilIncl c rest

/-- Translation of `BufReader::get_until`: `read_until` the delimiter,
fail `Incomplete` when zero bytes were read, and append what was read to
the raw buffer. -/
def getUntil (c : Nat) (s : PState) : Except Err (List Nat × PState) :=
  if (takeUntilIncl c s.rem).length = 0 then .error .incomplete
  else .ok (takeUntilIncl c s.rem,
            ⟨s.rem.drop (takeUntilIncl c s.rem).length, s.raw ++ takeUntilIncl c s.rem⟩)

/-- Translation of `BufReader::get_line`: `get_until(b'\r')`, then one
more byte that must be `b'\n'`; returns the line without its `'\r'`. -/
def getLine (s : PState) : Except Err (List Nat × PState) :=
  match getUntil 13 s with
  | .error e => .error e
  | .ok (line, s1) =>
    match getU8 s1 with
    | .error e => .error e
    | .ok (next, s2) =>
      if next ≠ 10 then .error (.other "broken line")
      else .ok (line.dropLast, s2)

theorem takeUntilIncl_length_le (c : Nat) (l : List Nat) :
    (takeUntilIncl c l).length ≤ l.length := by
  induction l with
  | nil => simp [takeUntilIncl]
  | cons b rest ih =>
    simp only [takeUntilIncl]
    split
    · simp
    · simpa using ih

theorem takeUntilIncl_nil_iff (c : Nat) (l : List Nat) :
    takeUntilIncl c l = [] ↔ l = [] := by
  cases l with
  | nil => simp [takeUntilIncl]
  | cons b rest =>
    simp only [takeUntilIncl]
    split <;> simp

theorem getUntil_rem_lt {c : Nat} {s : PState} {u : List Nat} {s' : PState}
    (h : getUntil c s = .ok (u, s')) : s'.rem.length < s.rem.length := by
  unfold getUntil at h
  split at h
  · exact absurd h (by simp)
  · rename_i hlen
    simp only [Except.ok.injEq, Prod.mk.injEq] at h
    obtain ⟨-, h2⟩ := h
    subst h2
    simp only [List.length_drop]
    have h1 := takeUntilIncl_length_le c s.rem
    omega

theorem getU8_rem_lt {s : PState} {b : Nat} {s' : PState}
    (h : getU8 s = .ok (b, s')) : s'.rem.length < s.rem.length := by
  unfold getU8 at h
  split at h
  · exact absurd h (by simp)
  · rename_i x rest hs
    simp only [Except.ok.injEq, Prod.mk.injEq] at h
    obtain ⟨-, h2⟩ := h
    subst h2
    simp [hs]

theorem getLine_rem_lt {s : PState} {ls : List Nat × PState}
    (h : getLine s = .ok ls) : ls.2.rem.length < s.rem.length := by
  unfold getLine at h
  split at h
  · exact absurd h (by simp)
  · rename_i line s1 hu
    split at h
    · exact absurd h (by simp)
    · rename_i next s2 h8
      split at h
      · exact absurd h (by simp)
      · simp only [Except.ok.injEq] at h
        subst h
        have h1 := getUntil_rem_lt hu
        have h2 := getU8_rem_lt h8
        show s2.rem.length < s.rem.length
        omega

/-- Translation of the header loop in `parse_req_http_connect`:
`while buf_reader.get_line(src).await?.len() > 0 {}`. -/
def readHeaders (s : PState) : Except Err PState :=
  match h : getLine s with
  | .error e => .error e
  | .ok ls =>
    if ls.1.length = 0 then .ok ls.2
    else readHeaders ls.2
termination_by s.rem.length
decreasing_by exact getLine_rem_lt h

/-- Continuation-byte test for UTF-8 (`0x80..=0xBF`). -/
def isCont (b : Nat) : Bool := 128 ≤ b && b ≤ 191

/-- UTF-8 validity of a byte sequence per RFC 3629, the check performed
by Rust's `String::from_utf8` in `get_addr`. -/
def validUtf8 : List Nat → Bool
  | [] => true
  | b :: rest =>
    if b ≤ 0x7F then validUtf8 rest
    else if 0xC2 ≤ b && b ≤ 0xDF then
      match rest with
      | b1 :: r => isCont b1 && validUtf8 r
      | _ => false
    else if b = 0xE0 then
      match rest with
      | b1 :: b2 :: r => (0xA0 ≤ b1 && b1 ≤ 0xBF) && isCont b2 && validUtf8 r
      | _ => false
    else if 0xE1 ≤ b && b ≤ 0xEC then
      match rest with
      | b1 :: b2 :: r => isCont b1 && isCont b2 && validUtf8 r
      | _ => false
    else if b = 0xED then
      match rest with
      | b1 :: b2 :: r => (0x80 ≤ b1 && b1 ≤ 0x9F) && isCont b2 && validUtf8 r
      | _ => false
    else if 0xEE ≤ b && b ≤ 0xEF then
      match rest with
      | b1 :: b2 :: r => isCont b1 && isCont b2 && validUtf8 r
      | _ => false
    else if b = 0xF0 then
      match rest with
      | b1 :: b2 :: b3 :: r => (0x90 ≤ b1 && b1 ≤ 0xBF) && isCont b2 && isCont b3 && validUtf8 r
      | _ => false
    else if 0xF1 ≤ b && b ≤ 0xF3 then
      match rest with
      | b1 :: b2 :: b3 :: r => isCont b1 && isCont b2 && isCont b3 && validUtf8 r
      | _ => false
    else if b = 0xF4 then
      match rest with
      | b1 :: b2 :: b3 :: r => (0x80 ≤ b1 && b1 ≤ 0x8F) && isCont b2 && isCont b3 && validUtf8 r
      | _ => false
    else false

/-- Behaviour of Rust's `str::split(sep)` at the byte level. -/
def splitOnByte (sep : Nat) : List Nat → List (List Nat)
  | [] => [[]]
  | b :: rest =>
    if b = sep then [] :: splitOnByte sep rest
    else
      match splitOnByte sep rest with
      | part :: parts => (b :: part) :: parts
      | [] => [[b]]

/-- Host value returned by the `url` crate's `Url::host()`. -/
inductive UrlHost where
  | ipv4 (a : Nat)
  | ipv6 (a : Nat)
  | domain (d : List Nat)
deriving DecidableEq, Repr

/-- Result of a successful `Url::parse("http://" ++ s)`: its host (if
any) and its explicit port (if any).  The `url` crate itself is an
external dependency, so HTTP parsing is parameterised over a function
producing this record (`none` models `Url::parse` returning `Err`). -/
structure UrlParsed where
  host : Option UrlHost
  port : Option Nat
deriving DecidableEq, Repr

/-- Translation of `parse_auth` in `src/protocol.rs`. -/
def parseAuth (s : PState) : Except Err (AuthReq × PState) :=
  match getU8 s with
  | .error e => .error e
  | .ok (nMethods, s1) =>
    match getNBytes nMethods s1 with
    | .error e => .error e
    | .ok (ms, s2) => .ok (⟨ms⟩, s2)

/-- Translation of `parse_req_v4` in `src/protocol.rs`.  The `pop` on
the USERID bytes cannot fail after a successful `get_until`; an empty
vector would panic (`panicked`). -/
def parseReqV4 (s : PState) : Except Err (Request × PState) :=
  match getU8 s with
  | .error e => .error e
  | .ok (nCmd, s1) =>
    match ReqCmd.fromU8 nCmd with
    | none => .error (.unknownCmd 4)
    | some cmd =>
      match getU16 s1 with
      | .error e => .error e
      | .ok (port, s2) =>
        match getU32 s2 with
        | .error e => .error e
        | .ok (ipv4, s3) =>
          match getUntil 0 s3 with
          | .error e => .error e
          | .ok (userId, s4) =>
            match userId.getLast? with
            | none => .error .panicked
            | some last =>
              if last ≠ 0 then .error .incomplete
              else .ok ({ ver := .v4, cmd := cmd, rsv := 0, dst_domain := none,
                          dst_addr := some (.v4 ipv4), dst_port := port,
                          a_type := .ipv4, raw := s4.raw }, s4)

/-- Translation of `get_addr` in `src/protocol.rs` (SOCKS5 address
field).  `String::from_utf8` failure maps to `Error::Other`. -/
def getAddr (s : PState) : Except Err ((Option IpAddr × Option (List Nat) × AType) × PState) :=
  match getU8 s with
  | .error e => .error e
  | .ok (t, s1) =>
    if t = 1 then
      match getU32 s1 with
      | .error e => .error e
      | .ok (ip, s2) => .ok ((some (.v4 ip), none, .ipv4), s2)
    else if t = 3 then
      match getU8 s1 with
      | .error e => .error e
      | .ok (aLen, s2) =>
        match getNBytes aLen s2 with
        | .error e => .error e
        | .ok (bs, s3) =>
          if validUtf8 bs then .ok ((none, some bs, .domain), s3)
          else .error (.other "invalid utf-8 sequence")
    else if t = 4 then
      match getU128 s1 with
      | .error e => .error e
      | .ok (ip, s2) => .ok ((some (.v6 ip), none, .ipv6), s2)
    else .error (.addrTypeUnsupported 5)

/-- Translation of `parse_req_v5` in `src/protocol.rs`. -/
def parseReqV5 (s : PState) : Except Err (Request × PState) :=
  match getU8 s with
  | .error e => .error e
  | .ok (nCmd, s1) =>
    match ReqCmd.fromU8 nCmd with
    | none => .error (.unknownCmd 5)
    | some cmd =>
      match getU8 s1 with
      | .error e => .error e
      | .ok (rsv, s2) =>
        match getAddr s2 with
        | .error e => .error e
        | .ok ((dstAddr, dstDomain, aType), s3) =>
          match getU16 s3 with
          | .error e => .error e
          | .ok (port, s4) =>
            .ok ({ ver := .v5, cmd := cmd, rsv := rsv, dst_domain := dstDomain,
                   dst_addr := dstAddr, dst_port := port, a_type := aType,
                   raw := s4.raw }, s4)

/-- Translation of `parse_req_http_connect` in `src/protocol.rs`:
request line, header loop to the blank line, split on spaces, the
`"ONNECT"` check, then the host match on the abstracted `url` parse
(`[79,78,78,69,67,84]` is "ONNECT" in bytes). -/
def parseReqHttpConnect (urlParse : List Nat → Option UrlParsed) (s : PState) :
    Except Err (Request × PState) :=
  match getLine s with
  | .error e => .error e
  | .ok (line, s1) =>
    match readHeaders s1 with
    | .error e => .error e
    | .ok s2 =>
      match splitOnByte 32 line with
      | [p0, p1, _p2] =>
        if p0 ≠ [79, 78, 78, 69, 67, 84] then .error (.unknownCmd 0)
        else
          match urlParse p1 with
          | none => .error (.other "Bad Request Url")
          | some u =>
            match u.host with
            | none => .error (.other "Bad Request Host")
            | some (.ipv4 ip) =>
              .ok ({ ver := .http, cmd := .connect, rsv := 0, dst_domain := none,
                     dst_addr := some (.v4 ip), dst_port := u.port.getD 80,
                     a_type := .ipv4, raw := s2.raw }, s2)
            | some (.ipv6 ip) =>
              .ok ({ ver := .http, cmd := .connect, rsv := 0, dst_domain := none,
                     dst_addr := some (.v6 ip), dst_port := u.port.getD 80,
                     a_type := .ipv6, raw := s2.raw }, s2)
            | some (.domain d) =>
              .ok ({ ver := .http, cmd := .connect, rsv := 0, dst_domain := some d,
                     dst_addr := none, dst_port := u.port.getD 80,
                     a_type := .domain, raw := s2.raw }, s2)
      | _ => .error (.other "Bad Request")

/-- Translation of `parse_req` in `src/protocol.rs`: dispatch on the
first byte (`4`, `5`, or `b'C' = 67`). -/
def parseReq (urlParse : List Nat → Option UrlParsed) (authorized : Bool) (s : PState) :
    Except Err (ReqFrame × PState) :=
  match getU8 s with
  | .error e => .error e
  | .ok (nVer, s1) =>
    if nVer = 4 then
      match parseReqV4 s1 with
      | .error e => .error e
      | .ok (r, s') => .ok (.req r, s')
    else if nVer = 5 then
      if !authorized then
        match parseAuth s1 with
        | .error e => .error e
        | .ok (a, s') => .ok (.auth a, s')
      else
        match parseReqV5 s1 with
        | .error e => .error e
        | .ok (r, s') => .ok (.req r, s')
    else if nVer = 67 then
      match parseReqHttpConnect urlParse s1 with
      | .error e => .error e
      | .ok (r, s') => .ok (.req r, s')
    else .error (.vnUnsupported nVer)

/-- Run the parser the way `recv_and_parse_req` does on a buffered byte
sequence: fresh cursor over `input`, fresh raw-capture buffer. -/
def parseBytes (urlParse : List Nat → Option UrlParsed) (authorized : Bool)
    (input : List Nat) : Except Err (ReqFrame × PState) :=
  parseReq urlParse authorized ⟨input, []⟩

/-- Big-endian bytes of a `u16` (`write_u16`). -/
def u16be (n : Nat) : List Nat := [n / 256 % 256, n % 256]

/-- Big-endian bytes of a `u32` (`write_u32`). -/
def u32be (n : Nat) : List Nat :=
  [n / 2 ^ 24 % 256, n / 2 ^ 16 % 256, n / 2 ^ 8 % 256, n % 256]

/-- Big-endian bytes of a `u128` (`write_u128`). -/
def u128be (n : Nat) : List Nat :=
  (List.range 16).map (fun i => n / 2 ^ (8 * (15 - i)) % 256)

/-- Reply code enum, `ReplyCmd` in `src/protocol.rs`. -/
inductive ReplyCmd where
  | successful
  | serverError
  | rulesNotAllowed
  | networkUnreachable
  | hostUnreachable
  | connectionRefused
  | ttlExpired
  | cmdTypeUnsupported
  | addrTypeUnsupported
deriving DecidableEq, Repr

/-- Rust discriminant of `ReplyCmd` (`*self as u8`, SOCKS5 order). -/
def ReplyCmd.discr : ReplyCmd → Nat
  | .successful => 0
  | .serverError => 1
  | .rulesNotAllowed => 2
  | .networkUnreachable => 3
  | .hostUnreachable => 4
  | .connectionRefused => 5
  | .ttlExpired => 6
  | .cmdTypeUnsupported => 7
  | .addrTypeUnsupported => 8

/-- Translation of `ReplyCmd::as_u8`. -/
def ReplyCmd.asU8 (c : ReplyCmd) (ver : Ver) : Nat :=
  match ver with
  | .v4 =>
    match c with
    | .successful => 90
    | .connectionRefused => 91
    | _ => 92
  | .v5 => c.discr
  | .http => 0

/-- Byte sequence of the fixed HTTP success line
`HTTP/1.1 200 Connection Established` followed by CRLF CRLF. -/
def httpEstablished : List Nat :=
  "HTTP/1.1 200 Connection Established\r\n\r\n".data.map Char.toNat

/-- State of the `tokio::io::BufWriter<Vec<u8>>` that backs `Reply`
(created by `Reply::new` with capacity 64): `inner` is the wrapped
`Vec<u8>` that flushed bytes land in, `pend` the pending in-buffer
bytes.  `Reply::successful` never flushes and returns
`self.buffer.buffer()`, i.e. only `pend`. -/
structure BufW where
  inner : List Nat
  pend : List Nat
deriving DecidableEq, Repr

/-- `flush_buf` of the `BufWriter`: move the pending bytes into the
wrapped `Vec`. -/
def bwFlush (w : BufW) : BufW := ⟨w.inner ++ w.pend, []⟩

/-- Second half of one `poll_write`: a byte sequence at least as long
as the capacity bypasses the buffer straight into the wrapped `Vec`,
anything shorter is appended to the pending buffer. -/
def bwWriteStep (bs : List Nat) (w1 : BufW) : BufW :=
  if 64 ≤ bs.length then { w1 with inner := w1.inner ++ bs }
  else { w1 with pend := w1.pend ++ bs }

/-- One `poll_write` of the capacity-64 `BufWriter` (tokio's
`BufWriter` semantics): flush first when the pending buffer cannot
also hold `bs`, then write through or buffer.  Each of `write_u8`,
`write_u16`, `write_u32`, `write_u128` and `write_buf` performs one
such write of its byte sequence. -/
def bwWrite (bs : List Nat) (w : BufW) : BufW :=
  bwWriteStep bs (if 64 < w.pend.length + bs.length then bwFlush w else w)

/-- `BufWriter::buffer()`: the pending bytes — what `Reply::successful`
returns and `Connection::reply` sends to the client. -/
def BufW.buffer (w : BufW) : List Nat := w.pend

/-- Translation of `write_addr` in `src/protocol.rs`, threading the
reply's `BufWriter`.  `unwrap()` on a missing option is `panicked`;
note the `Domain` arm writes `domain_bs.len() as u8` (length modulo
256) and then the whole byte string via `write_buf`, with no
truncation. -/
def writeAddr (w : BufW) (addr : AType × Option IpAddr × Option (List Nat)) :
    Except Err BufW :=
  match addr.1 with
  | .ipv4 =>
    match addr.2.1 with
    | none => .error .panicked
    | some (.v4 ip) => .ok (bwWrite (u32be ip) w)
    | some (.v6 _) => .error (.addrTypeUnsupported AType.ipv4.toU8)
  | .domain =>
    match addr.2.2 with
    | none => .error .panicked
    | some d => .ok (bwWrite d (bwWrite [d.length % 256] w))
  | .ipv6 =>
    match addr.2.1 with
    | none => .error .panicked
    | some (.v6 ip) => .ok (bwWrite (u128be ip) w)
    | some (.v4 _) => .error (.addrTypeUnsupported AType.ipv6.toU8)

/-- Translation of `Reply::successful` in `src/protocol.rs`, over the
fresh capacity-64 `BufWriter` made by `Reply::new`.  The result is the
final writer state; the bytes actually returned (and sent to the
client) are its `buffer`, the pending bytes only.  In the `V4` arm the
source writes the 4 address bytes only inside
`if let IpAddr::V4(ip) = addr.1.unwrap()`; a non-V4 address therefore
produces a 4-byte reply with no address field at all. -/
def replySuccessful (ver : Ver) (addr : AType × Option IpAddr × Option (List Nat))
    (port : Nat) : Except Err BufW :=
  match ver with
  | .v4 =>
    let w := bwWrite (u16be port)
      (bwWrite [ReplyCmd.successful.asU8 .v4] (bwWrite [0] ⟨[], []⟩))
    match addr.2.1 with
    | none => .error .panicked
    | some (.v4 ip) => .ok (bwWrite (u32be ip) w)
    | some (.v6 _) => .ok w
  | .v5 =>
    let w := bwWrite [addr.1.toU8]
      (bwWrite [0] (bwWrite [ReplyCmd.successful.asU8 .v5] (bwWrite [5] ⟨[], []⟩)))
    match writeAddr w addr with
    | .error e => .error e
    | .ok w2 => .ok (bwWrite (u16be port) w2)
  | .http => .ok (bwWrite httpEstablished ⟨[], []⟩)

theorem bwWrite_small {bs : List Nat} {w : BufW} (h1 : w.pend.length + bs.length ≤ 64)
    (h2 : bs.length < 64) : bwWrite bs w = ⟨w.inner, w.pend ++ bs⟩ := by
  unfold bwWrite bwWriteStep
  rw [if_neg (by omega), if_neg (by omega)]

/-- Routing verdict, `Routing` in `src/rule.rs`. -/
inductive Routing where
  | direct
  | proxy
  | reject
deriving DecidableEq, Repr

/-- Loop body of `domain_ends_with` in `src/rule.rs`: walk the dot-split
parts from the back, growing `segment`, comparing against the suffix
pattern and prepending `'.'` (byte 46) between rounds. -/
def dewLoop (suffix : List Nat) : List (List Nat) → List Nat → Bool
  | [], _ => false
  | part :: rest, segment =>
    if part ++ segment = suffix then true
    else dewLoop suffix rest (46 :: (part ++ segment))

/-- Translation of `domain_ends_with` in `src/rule.rs`. -/
def domainEndsWith (domain suffix : List Nat) : Bool :=
  dewLoop suffix (splitOnByte 46 domain).reverse []

/-- Byte-level substring test, the behaviour of Rust's
`str::contains(&str)` used for `DOMAIN-KEYWORD` rules. -/
def containsSeq (hay needle : List Nat) : Bool :=
  if needle.isPrefixOf hay then true
  else
    match hay with
    | [] => false
    | _ :: t => containsSeq t needle

/-- Country record of the MaxMind reader (`geoip2::Country`), reduced to
the fields `rule::ip` reads. -/
structure GeoCountry where
  iso_code : Option (List Nat)
deriving DecidableEq, Repr

/-- Top-level GeoIP lookup record. -/
structure GeoRecord where
  country : Option GeoCountry
deriving DecidableEq, Repr

/-- Rule tables of `src/rule.rs`, with CIDR membership (the external
`ipnetwork::IpNetwork::contains`) abstracted to a predicate. -/
structure RuleStore where
  domainSet : List (List Nat × Routing)
  domainSuffixSet : List (List Nat × Routing)
  domainKeywordSet : List (List Nat × Routing)
  ipCidr : List ((IpAddr → Bool) × Routing)
  ipCidr6 : List ((IpAddr → Bool) × Routing)

/-- Exact-match lookup in the `DOMAIN` table (`HashMap::get`). -/
def assocFind (k : List Nat) : List (List Nat × Routing) → Option Routing
  | [] => none
  | (k', v) :: rest => if k' = k then some v else assocFind k rest

/-- Loop over `domain_suffix_set` in `rule::domain`. -/
def suffixLoop (d : List Nat) : List (List Nat × Routing) → Option Routing
  | [] => none
  | (suf, v) :: rest => if domainEndsWith d suf then some v else suffixLoop d rest

/-- Loop over `domain_keyword_set` in `rule::domain`. -/
def keywordLoop (d : List Nat) : List (List Nat × Routing) → Option Routing
  | [] => none
  | (kw, v) :: rest => if containsSeq d kw then some v else keywordLoop d rest

/-- Loop over the CIDR table in `rule::ip`. -/
def cidrLoop (ip : IpAddr) : List ((IpAddr → Bool) × Routing) → Option Routing
  | [] => none
  | (member, v) :: rest => if member ip then some v else cidrLoop ip rest

/-- Translation of `rule::ip` in `src/rule.rs`: the family's CIDR list
first, then the GeoIP country lookup (abstracted as `geo`), `Direct`
for ISO code "CN" (`[67, 78]` as bytes, with `unwrap_or("_")`, and
`"_"` is byte 95), and `Proxy` in every remaining case. -/
def ruleIp (store : RuleStore) (geo : IpAddr → Except Unit GeoRecord) (ip : IpAddr) : Routing :=
  let cidrIpList :=
    match ip with
    | .v4 _ => store.ipCidr
    | .v6 _ => store.ipCidr6
  match cidrLoop ip cidrIpList with
  | some v => v
  | none =>
    match geo ip with
    | .ok record =>
      match record.country with
      | some c => if c.iso_code.getD [95] = [67, 78] then .direct else .proxy
      | none => .proxy
    | .error _ => .proxy

/-- Translation of `rule::domain` in `src/rule.rs`: exact table, suffix
table, keyword table, then DNS resolution (abstracted as `resolve`,
whose failure propagates through `?`), classifying the first resolved
address with `rule::ip` and defaulting to `Proxy` when the resolver
returns no address. -/
def ruleDomain (store : RuleStore) (geo : IpAddr → Except Unit GeoRecord)
    (resolve : List Nat → Except Err (List IpAddr)) (d : List Nat) : Except Err Routing :=
  match assocFind d store.domainSet with
  | some v => .ok v
  | none =>
    match suffixLoop d store.domainSuffixSet with
    | some v => .ok v
    | none =>
      match keywordLoop d store.domainKeywordSet with
      | some v => .ok v
      | none =>
        match resolve d with
        | .error e => .error e
        | .ok addrs =>
          match addrs.head?.map (fun a => ruleIp store geo a) with
          | some v => .ok v
          | none => .ok .proxy

/-- Mirror of the specification's `classify_ip` as worded in the claim:
consult the CIDR map of the address family and return the verdict of a
containing CIDR; otherwise return `Direct` exactly when the GeoIP
lookup yields a country whose ISO code is "CN", `Proxy` for any other
outcome, in particular whenever the lookup fails. -/
def classifyIpSpec (store : RuleStore) (geo : IpAddr → Except Unit GeoRecord)
    (ip : IpAddr) : Routing :=
  let cidrs :=
    match ip with
    | .v4 _ => store.ipCidr
    | .v6 _ => store.ipCidr6
  match cidrs.find? (fun p => p.1 ip) with
  | some p => p.2
  | none =>
    match geo ip with
    | .error _ => .proxy
    | .ok record =>
      if record.country.bind GeoCountry.iso_code = some [67, 78] then .direct
      else .proxy

/-- Mirror of the specification's `classify_domain` as worded in the
claim: exact `DOMAIN` match first, then `DOMAIN-SUFFIX`, then
`DOMAIN-KEYWORD` (substring), each first-match-wins; otherwise resolve
the domain, classify the first resolved address with `classify_ip`, and
return `Proxy` when resolution yields no address. -/
def classifyDomainSpec (store : RuleStore) (geo : IpAddr → Except Unit GeoRecord)
    (resolve : List Nat → Except Err (List IpAddr)) (d : List Nat) : Except Err Routing :=
  match store.domainSet.find? (fun p => p.1 = d) with
  | some p => .ok p.2
  | none =>
    match store.domainSuffixSet.find? (fun p => domainEndsWith d p.1) with
    | some p => .ok p.2
    | none =>
      match store.domainKeywordSet.find? (fun p => containsSeq d p.1) with
      | some p => .ok p.2
      | none =>
        match resolve d with
        | .error e => .error e
        | .ok [] => .ok .proxy
        | .ok (a :: _) => .ok (classifyIpSpec store geo a)

/-- Rust discriminant of `Ver` (`req.ver as u8`). -/
def Ver.toU8 : Ver → Nat
  | .v4 => 4
  | .v5 => 5
  | .http => 6

/-- Upstream proxy configuration, `ProxyCfg` in `src/connection.rs`. -/
structure ProxyCfg where
  proxy_srv_host : List Nat
  proxy_srv_port : Nat
  cert_path : List Nat
deriving DecidableEq, Repr

/-- Value of `ProxyCfg::addr` (the `host:port` join, kept as a pair). -/
def ProxyCfg.addrPair (c : ProxyCfg) : List Nat × Nat :=
  (c.proxy_srv_host, c.proxy_srv_port)

/-- Where `Connection::process_request` dials. -/
inductive DialTarget where
  | proxyServer (addr : List Nat × Nat)
  | destIp (ip : IpAddr) (port : Nat)
  | destDomain (d : List Nat) (port : Nat)
deriving DecidableEq, Repr

/-- Translation of `Connection::process_request` in
`src/connection.rs`, with the actual TCP dial abstracted away: the
result records which endpoint is dialled and the `direct` flag the
source returns alongside the socket.  `ruleIpF` and `ruleDomainF` stand
for `rule::ip` and `rule::domain` over the process-global store. -/
def processRequest (ruleIpF : IpAddr → Routing)
    (ruleDomainF : List Nat → Except Err Routing)
    (proxyCfg : Option ProxyCfg) (req : Request) : Except Err (DialTarget × Bool) :=
  match req.cmd with
  | .connect =>
    match req.dst_addr with
    | some ip =>
      match proxyCfg with
      | some proxy =>
        if ruleIpF ip = .proxy then .ok (.proxyServer proxy.addrPair, false)
        else .ok (.destIp ip req.dst_port, true)
      | none => .ok (.destIp ip req.dst_port, true)
    | none =>
      match req.dst_domain with
      | some d =>
        match proxyCfg with
        | some proxy =>
          match ruleDomainF d with
          | .error e => .error e
          | .ok v =>
            if v = .proxy then .ok (.proxyServer proxy.addrPair, false)
            else .ok (.destDomain d req.dst_port, true)
        | none => .ok (.destDomain d req.dst_port, true)
      | none => .error (.addrTypeUnsupported req.ver.toU8)
  | .bind => .error .notImplemented
  | .udp => .error .notImplemented

/-- UTF-8 bytes of a string literal, for concrete rule-matching facts. -/
def strBytes (s : String) : List Nat := s.data.map Char.toNat

/-- Inverse of `splitOnByte`: joins parts with the separator byte. -/
def joinSep (sep : Nat) : List (List Nat) → List Nat
  | [] => []
  | [p] => p
  | p :: q :: ps => p ++ sep :: joinSep sep (q :: ps)

theorem splitOnByte_ne_nil (sep : Nat) (l : List Nat) : splitOnByte sep l ≠ [] := by
  cases l with
  | nil => simp [splitOnByte]
  | cons b rest =>
    simp only [splitOnByte]
    split
    · simp
    · split <;> simp

theorem joinSep_splitOnByte (sep : Nat) (l : List Nat) :
    joinSep sep (splitOnByte sep l) = l := by
  induction l with
  | nil => simp [splitOnByte, joinSep]
  | cons b rest ih =>
    simp only [splitOnByte]
    split
    · rename_i hb
      subst hb
      match hs : splitOnByte b rest with
      | [] => exact absurd hs (splitOnByte_ne_nil b rest)
      | p :: ps =>
        rw [hs] at ih
        simp [joinSep, ih]
    · match hs : splitOnByte sep rest with
      | [] => exact absurd hs (splitOnByte_ne_nil sep rest)
      | [p] =>
        rw [hs] at ih
        simp only [joinSep] at ih ⊢
        simp [ih]
      | p :: q :: ps =>
        rw [hs] at ih
        simp only [joinSep] at ih ⊢
        simp [ih]

theorem splitOnByte_append_sep (sep : Nat) (xs ys : List Nat) :
    splitOnByte sep (xs ++ sep :: ys) = splitOnByte sep xs ++ splitOnByte sep ys := by
  induction xs with
  | nil => simp [splitOnByte]
  | cons b rest ih =>
    simp only [List.cons_append, splitOnByte]
    split
    · simp [ih]
    · simp only [List.append_eq]
      rw [ih]
      match hs : splitOnByte sep rest with
      | [] => exact absurd hs (splitOnByte_ne_nil sep rest)
      | p :: ps => simp

theorem joinSep_append_of_ne_nil (sep : Nat) (xs ys : List (List Nat))
    (hx : xs ≠ []) (hy : ys ≠ []) :
    joinSep sep (xs ++ ys) = joinSep sep xs ++ sep :: joinSep sep ys := by
  induction xs with
  | nil => exact absurd rfl hx
  | cons p rest ih =>
    cases rest with
    | nil =>
      cases ys with
      | nil => exact absurd rfl hy
      | cons q qs => simp [joinSep]
    | cons q qs =>
      have hrec := ih (by simp)
      simp only [List.cons_append, joinSep, List.append_eq] at hrec ⊢
      rw [hrec]
      simp [List.append_assoc]

theorem dewLoop_iff (suffix : List Nat) (ps : List (List Nat)) (seg : List Nat) :
    dewLoop suffix ps seg = true ↔
      ∃ i, i < ps.length ∧ joinSep 46 ((ps.take (i + 1)).reverse) ++ seg = suffix := by
  induction ps generalizing seg with
  | nil => simp [dewLoop]
  | cons p rest ih =>
    simp only [dewLoop]
    split
    · rename_i heq
      simp only [true_iff]
      exact ⟨0, by simp, by simpa [joinSep] using heq⟩
    · rename_i hne
      rw [ih]
      constructor
      · rintro ⟨i, hi, hji⟩
        refine ⟨i + 1, by simpa using hi, ?_⟩
        have hrev : ((p :: rest).take (i + 1 + 1)).reverse
            = (rest.take (i + 1)).reverse ++ [p] := by
          simp [List.take_succ_cons]
        rw [hrev, joinSep_append_of_ne_nil 46 _ [p] ?hne (by simp)]
        · simpa using hji
        case hne =>
          have : rest.take (i + 1) ≠ [] := by
            cases hr : rest with
            | nil => simp [hr] at hi
            | cons a as => simp [hr, List.take_succ_cons]
          simpa using this
      · rintro ⟨i, hi, hji⟩
        match i with
        | 0 =>
          exfalso
          simp only [List.take_succ_cons, List.take_zero] at hji
          simp only [List.reverse_cons, List.reverse_nil, List.nil_append] at hji
          exact hne (by simpa [joinSep] using hji)
        | j + 1 =>
          refine ⟨j, by simpa using hi, ?_⟩
          have hrev : ((p :: rest).take (j + 1 + 1)).reverse
              = (rest.take (j + 1)).reverse ++ [p] := by
            simp [List.take_succ_cons]
          rw [hrev, joinSep_append_of_ne_nil 46 _ [p] ?hne2 (by simp)] at hji
          · simpa using hji
          case hne2 =>
            have : rest.take (j + 1) ≠ [] := by
              cases hr : rest with
              | nil => simp [hr] at hi
              | cons a as => simp [hr, List.take_succ_cons]
            simpa using this

theorem domainEndsWith_iff (d s : List Nat) :
    domainEndsWith d s = true ↔ d = s ∨ ∃ p, d = p ++ 46 :: s := by
  unfold domainEndsWith
  rw [dewLoop_iff]
  constructor
  · rintro ⟨i, hi, hj⟩
    rw [List.length_reverse] at hi
    rw [List.take_reverse, List.reverse_reverse, List.append_nil] at hj
    rcases Nat.eq_zero_or_pos ((splitOnByte 46 d).length - (i + 1)) with hj0 | hj0
    · left
      rw [hj0, List.drop_zero, joinSep_splitOnByte] at hj
      exact hj
    · right
      set parts := splitOnByte 46 d with hparts
      set j := parts.length - (i + 1) with hjdef
      have hjlt : j < parts.length := by omega
      have hTakeNe : parts.take j ≠ [] := by
        intro hnil
        have := congrArg List.length hnil
        simp only [List.length_take, List.length_nil] at this
        omega
      have hDropNe : parts.drop j ≠ [] := by
        intro hnil
        have := congrArg List.length hnil
        simp only [List.length_drop, List.length_nil] at this
        omega
      refine ⟨joinSep 46 (parts.take j), ?_⟩
      calc d = joinSep 46 parts := (joinSep_splitOnByte 46 d).symm
        _ = joinSep 46 (parts.take j ++ parts.drop j) := by rw [List.take_append_drop]
        _ = joinSep 46 (parts.take j) ++ 46 :: joinSep 46 (parts.drop j) :=
            joinSep_append_of_ne_nil 46 _ _ hTakeNe hDropNe
        _ = joinSep 46 (parts.take j) ++ 46 :: s := by rw [hj]
  · intro h
    rcases h with heq | ⟨p, hp⟩
    · have hlen : 0 < (splitOnByte 46 d).length :=
        List.length_pos.mpr (splitOnByte_ne_nil 46 d)
      refine ⟨(splitOnByte 46 d).length - 1, by simpa using Nat.sub_lt hlen one_pos, ?_⟩
      rw [List.take_reverse, List.reverse_reverse, List.append_nil]
      have hz : (splitOnByte 46 d).length - ((splitOnByte 46 d).length - 1 + 1) = 0 := by
        omega
      rw [hz, List.drop_zero, joinSep_splitOnByte]
      exact heq
    · subst hp
      rw [splitOnByte_append_sep]
      have hslen : 0 < (splitOnByte 46 s).length :=
        List.length_pos.mpr (splitOnByte_ne_nil 46 s)
      refine ⟨(splitOnByte 46 s).length - 1, ?_, ?_⟩
      · rw [List.length_reverse, List.length_append]
        omega
      · rw [List.take_reverse, List.reverse_reverse, List.append_nil]
        have hz : (splitOnByte 46 p ++ splitOnByte 46 s).length
            - ((splitOnByte 46 s).length - 1 + 1) = (splitOnByte 46 p).length := by
          rw [List.length_append]
          omega
        rw [hz, List.drop_left, joinSep_splitOnByte]

theorem assocFind_eq_find (k : List Nat) (l : List (List Nat × Routing)) :
    assocFind k l = (l.find? (fun p => p.1 = k)).map Prod.snd := by
  induction l with
  | nil => simp [assocFind]
  | cons p rest ih =>
    obtain ⟨k', v⟩ := p
    simp only [assocFind, List.find?]
    by_cases hp : k' = k
    · simp [hp]
    · simp only [hp, if_false]
      rw [ih]
      simp [hp]

theorem suffixLoop_eq_find (d : List Nat) (l : List (List Nat × Routing)) :
    suffixLoop d l = (l.find? (fun p => domainEndsWith d p.1)).map Prod.snd := by
  induction l with
  | nil => simp [suffixLoop]
  | cons p rest ih =>
    obtain ⟨suf, v⟩ := p
    simp only [suffixLoop, List.find?]
    by_cases hp : domainEndsWith d suf = true
    · simp [hp]
    · simp only [Bool.not_eq_true] at hp
      rw [if_neg (by simp [hp]), ih]
      simp [hp]

theorem keywordLoop_eq_find (d : List Nat) (l : List (List Nat × Routing)) :
    keywordLoop d l = (l.find? (fun p => containsSeq d p.1)).map Prod.snd := by
  induction l with
  | nil => simp [keywordLoop]
  | cons p rest ih =>
    obtain ⟨kw, v⟩ := p
    simp only [keywordLoop, List.find?]
    by_cases hp : containsSeq d kw = true
    · simp [hp]
    · simp only [Bool.not_eq_true] at hp
      rw [if_neg (by simp [hp]), ih]
      simp [hp]

theorem cidrLoop_eq_find (ip : IpAddr) (l : List ((IpAddr → Bool) × Routing)) :
    cidrLoop ip l = (l.find? (fun p => p.1 ip)).map Prod.snd := by
  induction l with
  | nil => simp [cidrLoop]
  | cons p rest ih =>
    obtain ⟨member, v⟩ := p
    simp only [cidrLoop, List.find?]
    by_cases hp : member ip = true
    · simp [hp]
    · simp only [Bool.not_eq_true] at hp
      rw [if_neg (by simp [hp]), ih]
      simp [hp]

theorem ruleIp_eq_classifyIpSpec (store : RuleStore)
    (geo : IpAddr → Except Unit GeoRecord) (ip : IpAddr) :
    ruleIp store geo ip = classifyIpSpec store geo ip := by
  unfold ruleIp classifyIpSpec
  have hgeo :
      (match geo ip with
        | .ok record =>
          match record.country with
          | some c => if c.iso_code.getD [95] = [67, 78] then Routing.direct else Routing.proxy
          | none => Routing.proxy
        | .error _ => Routing.proxy) =
      (match geo ip with
        | .error _ => Routing.proxy
        | .ok record =>
          if record.country.bind GeoCountry.iso_code = some [67, 78] then Routing.direct
          else Routing.proxy) := by
    cases hg : geo ip with
    | error e => rfl
    | ok record =>
      cases hc : record.country with
      | none => simp [hc]
      | some c =>
        cases hi : c.iso_code with
        | none => simp [hc, hi]
        | some x =>
          simp only [hc, hi, Option.getD_some, Option.some_bind, Option.some.injEq]
  cases ip with
  | v4 a =>
    simp only [cidrLoop_eq_find]
    cases hfind : store.ipCidr.find? (fun p => p.1 (.v4 a)) with
    | none => simpa using hgeo
    | some p => simp
  | v6 a =>
    simp only [cidrLoop_eq_find]
    cases hfind : store.ipCidr6.find? (fun p => p.1 (.v6 a)) with
    | none => simpa using hgeo
    | some p => simp

/-- C6: `classify_ip` (`rule::ip`) first consults the CIDR list of the
queried address's family and returns the verdict of a CIDR containing
the address; otherwise it performs the GeoIP country lookup and returns
`Direct` exactly when the ISO code is "CN" and `Proxy` for any other
country, and it returns `Proxy` whenever the GeoIP lookup fails. -/
theorem c6_classify_ip_cidr_then_geoip (store : RuleStore)
    (geo : IpAddr → Except Unit GeoRecord) (ip : IpAddr) :
    ruleIp store geo ip = classifyIpSpec store geo ip :=
  ruleIp_eq_classifyIpSpec store geo ip

/-- C4: `classify_domain` (`rule::domain`) applies rules in the fixed
order exact `DOMAIN`, then `DOMAIN-SUFFIX`, then `DOMAIN-KEYWORD`
(substring), returning the first matching rule's verdict; when no rule
matches it resolves the domain, classifies the first resolved address
with `classify_ip`, and returns `Proxy` when resolution yields no
address. -/
theorem c4_classify_domain_rule_order (store : RuleStore)
    (geo : IpAddr → Except Unit GeoRecord)
    (resolve : List Nat → Except Err (List IpAddr)) (d : List Nat) :
    ruleDomain store geo resolve d = classifyDomainSpec store geo resolve d := by
  unfold ruleDomain classifyDomainSpec
  rw [assocFind_eq_find, suffixLoop_eq_find, keywordLoop_eq_find]
  cases store.domainSet.find? (fun p => p.1 = d) with
  | some p => rfl
  | none =>
    cases store.domainSuffixSet.find? (fun p => domainEndsWith d p.1) with
    | some p => rfl
    | none =>
      cases store.domainKeywordSet.find? (fun p => containsSeq d p.1) with
      | some p => rfl
      | none =>
        cases resolve d with
        | error e => rfl
        | ok addrs =>
          cases addrs with
          | nil => rfl
          | cons a rest =>
            simp only [Option.map, List.head?]
            rw [ruleIp_eq_classifyIpSpec]

/-- C5: `DOMAIN-SUFFIX` matching respects whole-label boundaries: the
`domain_ends_with` test used by `classify_domain` accepts pattern `s`
on domain `d` exactly when `d = s` or `d` ends with `"." ++ s`; in
particular `google.com` matches suffix `google.com`, `foo.google.com`
matches it, `evil-google.com` does not, and suffix `le.com` does not
match `google.com`. -/
theorem c5_suffix_whole_label_boundary :
    (∀ d s : List Nat, domainEndsWith d s = true ↔ d = s ∨ ∃ p, d = p ++ 46 :: s)
    ∧ domainEndsWith (strBytes "google.com") (strBytes "google.com") = true
    ∧ domainEndsWith (strBytes "foo.google.com") (strBytes "google.com") = true
    ∧ domainEndsWith (strBytes "evil-google.com") (strBytes "google.com") = false
    ∧ domainEndsWith (strBytes "google.com") (strBytes "le.com") = false :=
  ⟨domainEndsWith_iff, by decide, by decide, by decide, by decide⟩

/-- C3: the claim says the 128-bit read fails with `Incomplete` exactly
when fewer than 16 bytes remain, so that a complete 22-byte SOCKS5 IPv6
request parses successfully.  The code's `get_u128` instead guards on
`remaining < 128`: the complete frame `[5,1,0,4, 16 address bytes,
2 port bytes]` is rejected as `Incomplete`, `get_u128` still fails on
127 remaining bytes, and only succeeds (consuming 16 bytes) once 128
bytes remain.  This contradicts the spec's own reading (§4.1, §9),
which calls the `128` comparison a mistake. -/
theorem c3_get_u128_threshold_bug :
    parseBytes (fun _ => none) true ([5, 1, 0, 4] ++ List.replicate 16 0 ++ [0, 80])
      = .error .incomplete
    ∧ getU128 ⟨List.replicate 127 0, []⟩ = .error .incomplete
    ∧ getU128 ⟨List.replicate 128 0, []⟩
        = .ok (0, ⟨List.replicate 112 0, List.replicate 16 0⟩) :=
  ⟨by decide, by decide, by decide⟩

/-- C7 counterexample: `Reply::successful` does not zero the ipv4 field
for a non-IPv4 destination in the SOCKS4 arm — it omits the field
entirely, emitting a 4-byte reply instead of the claimed 8-byte form —
and a SOCKS5 domain-typed reply for a 256-byte domain does not emit a
length byte of at most 255 followed by the domain truncated to 255
bytes: the header, the wrapped length byte `0` and the full 256-byte
domain overflow the capacity-64 `BufWriter` into the discarded inner
`Vec`, and the returned `buffer()` holds only the two pending port
bytes `[0, 80]`. -/
theorem c7_counterexample :
    replySuccessful .v4 (.ipv4, some (.v6 1), none) 80 = .ok ⟨[], [0, 90, 0, 80]⟩
    ∧ (replySuccessful .v4 (.ipv4, some (.v6 1), none) 80).map BufW.buffer
        ≠ .ok [0, 90, 0, 80, 0, 0, 0, 0]
    ∧ replySuccessful .v5 (.domain, none, some (List.replicate 256 97)) 80
        = .ok ⟨[5, 0, 0, 3, 0] ++ List.replicate 256 97, [0, 80]⟩
    ∧ (replySuccessful .v5 (.domain, none, some (List.replicate 256 97)) 80).map
        BufW.buffer ≠ .ok ([5, 0, 0, 3, 255] ++ List.replicate 255 97 ++ [0, 80]) :=
  ⟨by decide, by decide, by decide, by decide⟩

/-- C7 amended: `Reply::successful` emits, for SOCKS4, the bytes
`0x00, 0x5a, port(BE u16)` followed by the big-endian IPv4 address only
when the destination address is IPv4 — when the destination is present
but not IPv4 the address field is omitted entirely (a 4-byte reply),
not zeroed.  For a SOCKS5 domain-typed reply the writer buffers
`5, 0, 0, 3`, one length byte equal to the domain's byte length modulo
256, all of the domain's UTF-8 bytes (no truncation) and the port, but
returns only what is still pending in the capacity-64 `BufWriter`:
when the whole reply fits (domain length at most 57) the emitted bytes
are the full sequence, while a longer domain overflows into the
discarded inner `Vec` — for a 256-byte domain only the two port bytes
are emitted. -/
theorem c7_amended_reply_forms (port ip4 ip6 : Nat) (at4 : AType)
    (od : Option (List Nat)) (dm : List Nat) :
    replySuccessful .v4 (at4, some (.v4 ip4), od) port
      = .ok ⟨[], [0, 90] ++ u16be port ++ u32be ip4⟩
    ∧ replySuccessful .v4 (at4, some (.v6 ip6), od) port
      = .ok ⟨[], [0, 90] ++ u16be port⟩
    ∧ (dm.length ≤ 57 →
        replySuccessful .v5 (.domain, none, some dm) port
          = .ok ⟨[], [5, 0, 0, 3, dm.length % 256] ++ dm ++ u16be port⟩)
    ∧ replySuccessful .v5 (.domain, none, some (List.replicate 256 97)) 80
      = .ok ⟨[5, 0, 0, 3, 0] ++ List.replicate 256 97, [0, 80]⟩ := by
  refine ⟨rfl, rfl, ?_, by decide⟩
  intro hle
  have h1 : bwWrite [dm.length % 256]
      (bwWrite [AType.domain.toU8]
        (bwWrite [0] (bwWrite [ReplyCmd.successful.asU8 .v5]
          (bwWrite [5] (⟨[], []⟩ : BufW)))))
      = ⟨[], [5, 0, 0, 3, dm.length % 256]⟩ := rfl
  unfold replySuccessful
  dsimp only
  unfold writeAddr
  dsimp only
  rw [h1]
  rw [bwWrite_small (w := ⟨[], [5, 0, 0, 3, dm.length % 256]⟩)
    (by simp only [List.length_cons, List.length_nil]; omega) (by omega)]
  dsimp only
  rw [bwWrite_small
    (by
      simp only [List.length_append, List.length_cons, List.length_nil, u16be]
      omega)
    (by simp [u16be])]

/-- Closed instance of the C7 amended theorem's domain conjunct at the
8-byte domain "nexel.cc". -/
theorem c7_amended_reply_forms_witness :
    replySuccessful .v5 (.domain, none, some (strBytes "nexel.cc")) 80
      = .ok ⟨[], [5, 0, 0, 3, (strBytes "nexel.cc").length % 256]
          ++ strBytes "nexel.cc" ++ u16be 80⟩ :=
  (c7_amended_reply_forms 80 0 0 .ipv4 none (strBytes "nexel.cc")).2.2.1
    (by decide)

/-- Rule store whose CIDR tables classify every address as `Reject`,
used to drive the orchestrator's `Reject` path. -/
def rejectAllStore : RuleStore :=
  ⟨[], [], [], [(fun _ => true, .reject)], [(fun _ => true, .reject)]⟩

/-- C8 counterexample: a parsed CONNECT request whose destination
address the rule engine classifies as `Reject` is not refused — because
`process_request` only tests the verdict against `Proxy`, it dials the
requested destination itself and returns `direct = true`, i.e. the
success-reply path, dialling a destination despite the `Reject`
verdict. -/
theorem c8_counterexample :
    ruleIp rejectAllStore (fun _ => .error ()) (.v4 3232235777) = .reject
    ∧ processRequest (ruleIp rejectAllStore (fun _ => .error ()))
        (ruleDomain rejectAllStore (fun _ => .error ()) (fun _ => .ok []))
        (some ⟨strBytes "proxy.example", 6789, []⟩)
        { ver := .v4, cmd := .connect, rsv := 0, dst_domain := none,
          dst_addr := some (.v4 3232235777), dst_port := 8899,
          a_type := .ipv4, raw := [4, 1, 34, 195, 192, 168, 1, 1, 0] }
      = .ok (.destIp (.v4 3232235777) 8899, true) :=
  ⟨rfl, rfl⟩

/-- C8 amended: for every parsed CONNECT request whose routing
classification yields `Reject`, `Connection::process_request` behaves
exactly as for `Direct`: it dials the requested destination
(IP-literal or domain) and returns the `direct = true` flag that leads
to the success reply — there is no `Reject`-specific handling. -/
theorem c8_amended_reject_dials_destination (ruleIpF : IpAddr → Routing)
    (ruleDomainF : List Nat → Except Err Routing) (cfg : ProxyCfg) (req : Request)
    (hcmd : req.cmd = .connect) :
    (∀ ip, req.dst_addr = some ip → ruleIpF ip = .reject →
      processRequest ruleIpF ruleDomainF (some cfg) req
        = .ok (.destIp ip req.dst_port, true))
    ∧ (∀ d, req.dst_addr = none → req.dst_domain = some d →
      ruleDomainF d = .ok .reject →
      processRequest ruleIpF ruleDomainF (some cfg) req
        = .ok (.destDomain d req.dst_port, true)) := by
  constructor
  · intro ip haddr hrej
    simp only [processRequest, hcmd, haddr, hrej]
    simp
  · intro d haddr hdom hrej
    simp only [processRequest, hcmd, haddr, hdom, hrej]
    simp

/-- Closed instance of the C8 amended theorem at a concrete request and
a rule function classifying everything `Reject`. -/
theorem c8_amended_reject_dials_destination_witness :
    processRequest (fun _ => Routing.reject) (fun _ => .ok Routing.reject)
      (some ⟨[], 0, []⟩)
      { ver := .v5, cmd := .connect, rsv := 0, dst_domain := none,
        dst_addr := some (.v4 5), dst_port := 80, a_type := .ipv4, raw := [] }
      = .ok (.destIp (.v4 5) 80, true) :=
  (c8_amended_reject_dials_destination (fun _ => Routing.reject)
    (fun _ => .ok Routing.reject) ⟨[], 0, []⟩ _ rfl).1 (.v4 5) rfl rfl

theorem getU8_nil (r : List Nat) : getU8 ⟨[], r⟩ = .error .incomplete := rfl

theorem getU8_cons (b : Nat) (l r : List Nat) :
    getU8 ⟨b :: l, r⟩ = .ok (b, ⟨l, r ++ [b]⟩) := rfl

theorem getU8_ok_inv {s : PState} {b : Nat} {s' : PState}
    (h : getU8 s = .ok (b, s')) :
    s.rem = b :: s'.rem ∧ s'.raw = s.raw ++ [b] := by
  unfold getU8 at h
  split at h
  · exact absurd h (by simp)
  · rename_i x rest hs
    simp only [Except.ok.injEq, Prod.mk.injEq] at h
    obtain ⟨hb, h2⟩ := h
    subst hb
    subst h2
    exact ⟨hs, rfl⟩

theorem getU16_eq (b0 b1 : Nat) (l r : List Nat) :
    getU16 ⟨b0 :: b1 :: l, r⟩ = .ok (beVal [b0, b1], ⟨l, r ++ [b0, b1]⟩) := by
  unfold getU16
  rw [if_neg (by simp)]
  rfl

theorem getU16_short {l : List Nat} (r : List Nat) (h : l.length < 2) :
    getU16 ⟨l, r⟩ = .error .incomplete := by
  unfold getU16
  rw [if_pos (by simpa using h)]

theorem getU16_ok_inv {s : PState} {v : Nat} {s' : PState}
    (h : getU16 s = .ok (v, s')) :
    ∃ b0 b1, s.rem = b0 :: b1 :: s'.rem ∧ v = beVal [b0, b1]
      ∧ s'.raw = s.raw ++ [b0, b1] := by
  unfold getU16 at h
  split at h
  · exact absurd h (by simp)
  · rename_i hlen
    match hrem : s.rem with
    | [] => rw [hrem] at hlen; simp at hlen
    | [b0] => rw [hrem] at hlen; simp at hlen
    | b0 :: b1 :: rest =>
      rw [hrem] at h
      simp only [List.take, List.drop, Except.ok.injEq, Prod.mk.injEq] at h
      obtain ⟨hv, h2⟩ := h
      subst h2
      exact ⟨b0, b1, by simp [hrem], hv.symm, rfl⟩

theorem getU32_eq (b0 b1 b2 b3 : Nat) (l r : List Nat) :
    getU32 ⟨b0 :: b1 :: b2 :: b3 :: l, r⟩
      = .ok (beVal [b0, b1, b2, b3], ⟨l, r ++ [b0, b1, b2, b3]⟩) := by
  unfold getU32
  rw [if_neg (by simp)]
  rfl

theorem getU32_short {l : List Nat} (r : List Nat) (h : l.length < 4) :
    getU32 ⟨l, r⟩ = .error .incomplete := by
  unfold getU32
  rw [if_pos (by simpa using h)]

theorem getU32_ok_inv {s : PState} {v : Nat} {s' : PState}
    (h : getU32 s = .ok (v, s')) :
    ∃ b0 b1 b2 b3, s.rem = b0 :: b1 :: b2 :: b3 :: s'.rem ∧ v = beVal [b0, b1, b2, b3]
      ∧ s'.raw = s.raw ++ [b0, b1, b2, b3] := by
  unfold getU32 at h
  split at h
  · exact absurd h (by simp)
  · rename_i hlen
    match hrem : s.rem with
    | [] | [_] | [_, _] | [_, _, _] => rw [hrem] at hlen; simp at hlen
    | b0 :: b1 :: b2 :: b3 :: rest =>
      rw [hrem] at h
      simp only [List.take, List.drop, Except.ok.injEq, Prod.mk.injEq] at h
      obtain ⟨hv, h2⟩ := h
      subst h2
      exact ⟨b0, b1, b2, b3, by simp [hrem], hv.symm, rfl⟩

theorem getU128_ge {l : List Nat} (r : List Nat) (h : 128 ≤ l.length) :
    getU128 ⟨l, r⟩ = .ok (beVal (l.take 16), ⟨l.drop 16, r ++ l.take 16⟩) := by
  unfold getU128
  rw [if_neg (by simp; omega)]

theorem getU128_short {l : List Nat} (r : List Nat) (h : l.length < 128) :
    getU128 ⟨l, r⟩ = .error .incomplete := by
  unfold getU128
  rw [if_pos (by simpa using h)]

theorem getU128_ok_inv {s : PState} {v : Nat} {s' : PState}
    (h : getU128 s = .ok (v, s')) :
    128 ≤ s.rem.length ∧ s.rem = s.rem.take 16 ++ s'.rem ∧ v = beVal (s.rem.take 16)
      ∧ s'.raw = s.raw ++ s.rem.take 16 ∧ 112 ≤ s'.rem.length := by
  unfold getU128 at h
  split at h
  · exact absurd h (by simp)
  · rename_i hlen
    simp only [not_lt] at hlen
    simp only [Except.ok.injEq, Prod.mk.injEq] at h
    obtain ⟨hv, h2⟩ := h
    subst h2
    refine ⟨hlen, by simp, hv.symm, rfl, ?_⟩
    simp only [List.length_drop]
    omega

theorem getNLoop_eq (cs : List Nat) (l r acc : List Nat) :
    getNLoop cs.length ⟨cs ++ l, r⟩ acc = .ok (acc ++ cs, ⟨l, r ++ cs⟩) := by
  induction cs generalizing r acc with
  | nil => simp [getNLoop]
  | cons b rest ih =>
    simp only [List.length_cons, List.cons_append, getNLoop, getU8_cons]
    rw [ih]
    simp

theorem getNBytes_eq (cs : List Nat) (l r : List Nat) :
    getNBytes cs.length ⟨cs ++ l, r⟩ = .ok (cs, ⟨l, r ++ cs⟩) := by
  unfold getNBytes
  rw [if_neg (by simp)]
  simpa using getNLoop_eq cs l r []

theorem getNBytes_short {n : Nat} {l : List Nat} (r : List Nat) (h : l.length < n) :
    getNBytes n ⟨l, r⟩ = .error .incomplete := by
  unfold getNBytes
  rw [if_pos (by simpa using h)]

theorem getNLoop_ok_inv {n : Nat} {s : PState} {acc v : List Nat} {s' : PState}
    (h : getNLoop n s acc = .ok (v, s')) :
    ∃ cs, cs.length = n ∧ s.rem = cs ++ s'.rem ∧ v = acc ++ cs
      ∧ s'.raw = s.raw ++ cs := by
  induction n generalizing s acc with
  | zero =>
    simp only [getNLoop, Except.ok.injEq, Prod.mk.injEq] at h
    obtain ⟨hv, h2⟩ := h
    subst h2
    exact ⟨[], rfl, by simp, by simp [hv], by simp⟩
  | succ m ih =>
    simp only [getNLoop] at h
    split at h
    · exact absurd h (by simp)
    · rename_i b s1 h8
      obtain ⟨cs, hlen, hrem, hv, hraw⟩ := ih h
      obtain ⟨hrem8, hraw8⟩ := getU8_ok_inv h8
      refine ⟨b :: cs, by simp [hlen], ?_, ?_, ?_⟩
      · rw [hrem8, hrem]; simp
      · simpa using hv
      · rw [hraw, hraw8]; simp

theorem getNBytes_ok_inv {n : Nat} {s : PState} {v : List Nat} {s' : PState}
    (h : getNBytes n s = .ok (v, s')) :
    v.length = n ∧ s.rem = v ++ s'.rem ∧ s'.raw = s.raw ++ v := by
  unfold getNBytes at h
  split at h
  · exact absurd h (by simp)
  · obtain ⟨cs, hlen, hrem, hv, hraw⟩ := getNLoop_ok_inv h
    simp only [List.nil_append] at hv
    subst hv
    exact ⟨hlen, hrem, hraw⟩

theorem takeUntilIncl_of_not_mem {c : Nat} {l : List Nat} (h : c ∉ l) :
    takeUntilIncl c l = l := by
  induction l with
  | nil => rfl
  | cons b rest ih =>
    simp only [List.mem_cons, not_or] at h
    simp only [takeUntilIncl]
    rw [if_neg (by simpa using fun he => h.1 he.symm), ih h.2]

theorem takeUntilIncl_found {c : Nat} {u : List Nat} (rest : List Nat) (h : c ∉ u) :
    takeUntilIncl c (u ++ c :: rest) = u ++ [c] := by
  induction u with
  | nil => simp [takeUntilIncl]
  | cons b t ih =>
    simp only [List.mem_cons, not_or] at h
    simp only [List.cons_append, takeUntilIncl]
    rw [if_neg (by simpa using fun he => h.1 he.symm)]
    show b :: takeUntilIncl c (t ++ c :: rest) = b :: (t ++ [c])
    rw [ih h.2]

theorem getUntil_nil (c : Nat) (r : List Nat) :
    getUntil c ⟨[], r⟩ = .error .incomplete := rfl

theorem getUntil_found {c : Nat} {u : List Nat} (rest r : List Nat) (h : c ∉ u) :
    getUntil c ⟨u ++ c :: rest, r⟩ = .ok (u ++ [c], ⟨rest, r ++ (u ++ [c])⟩) := by
  unfold getUntil
  rw [takeUntilIncl_found rest h]
  rw [if_neg (by simp)]
  simp

theorem getUntil_not_mem {c : Nat} {l : List Nat} (r : List Nat) (hne : l ≠ [])
    (h : c ∉ l) : getUntil c ⟨l, r⟩ = .ok (l, ⟨[], r ++ l⟩) := by
  unfold getUntil
  rw [takeUntilIncl_of_not_mem h]
  rw [if_neg (by simpa using hne)]
  simp

theorem takeUntilIncl_spec (c : Nat) (l : List Nat) :
    (∃ u rest, c ∉ u ∧ l = u ++ c :: rest) ∨ c ∉ l := by
  induction l with
  | nil => right; simp
  | cons b t ih =>
    by_cases hb : b = c
    · left
      exact ⟨[], t, by simp, by simp [hb]⟩
    · rcases ih with ⟨u, rest, hu, hl⟩ | hnot
      · left
        exact ⟨b :: u, rest, by simp [hu, Ne.symm hb], by simp [hl]⟩
      · right
        simp [hnot, Ne.symm hb]

theorem getUntil_ok_inv {c : Nat} {s : PState} {v : List Nat} {s' : PState}
    (h : getUntil c s = .ok (v, s')) :
    s.rem = v ++ s'.rem ∧ s'.raw = s.raw ++ v ∧ v ≠ []
      ∧ ((∃ u, v = u ++ [c] ∧ c ∉ u) ∨ (c ∉ v ∧ s'.rem = [])) := by
  obtain ⟨srem, sraw⟩ := s
  rcases takeUntilIncl_spec c srem with ⟨u, rest, hu, hl⟩ | hnot
  · subst hl
    rw [getUntil_found rest sraw hu] at h
    simp only [Except.ok.injEq, Prod.mk.injEq] at h
    obtain ⟨hv, h2⟩ := h
    subst hv
    subst h2
    exact ⟨by simp, by simp, by simp, .inl ⟨u, rfl, hu⟩⟩
  · by_cases hnil : srem = []
    · subst hnil
      rw [getUntil_nil] at h
      exact absurd h (by simp)
    · rw [getUntil_not_mem sraw hnil hnot] at h
      simp only [Except.ok.injEq, Prod.mk.injEq] at h
      obtain ⟨hv, h2⟩ := h
      subst hv
      subst h2
      exact ⟨by simp, by simp, hnil, .inr ⟨hnot, rfl⟩⟩

theorem getLine_eq {u : List Nat} (l r : List Nat) (h13 : 13 ∉ u) :
    getLine ⟨u ++ 13 :: 10 :: l, r⟩ = .ok (u, ⟨l, r ++ u ++ [13, 10]⟩) := by
  unfold getLine
  have hfound := getUntil_found (c := 13) (u := u) (10 :: l) r h13
  rw [hfound]
  dsimp only
  rw [getU8_cons]
  dsimp only
  rw [if_neg (by simp)]
  simp [List.dropLast_concat, List.append_assoc]

theorem getLine_ok_inv {s : PState} {u : List Nat} {s' : PState}
    (h : getLine s = .ok (u, s')) :
    13 ∉ u ∧ s.rem = u ++ 13 :: 10 :: s'.rem ∧ s'.raw = s.raw ++ u ++ [13, 10] := by
  unfold getLine at h
  split at h
  · exact absurd h (by simp)
  · rename_i line s1 hu
    split at h
    · exact absurd h (by simp)
    · rename_i next s2 h8
      split at h
      · exact absurd h (by simp)
      · rename_i hnext
        simp only [ne_eq, Decidable.not_not] at hnext
        subst hnext
        simp only [Except.ok.injEq, Prod.mk.injEq] at h
        obtain ⟨hline, hs2⟩ := h
        subst hs2
        obtain ⟨hrem, hraw, hne, hstruct⟩ := getUntil_ok_inv hu
        obtain ⟨hrem8, hraw8⟩ := getU8_ok_inv h8
        rcases hstruct with ⟨w, hw, hwmem⟩ | ⟨hnmem, hnil⟩
        · subst hw
          subst hline
          refine ⟨by simpa using hwmem, ?_, ?_⟩
          · rw [hrem, hrem8]
            simp
          · rw [hraw8, hraw]
            simp
        · rw [hnil] at hrem8
          exact absurd hrem8 (by simp)

theorem getLine_short {u : List Nat} (h13 : 13 ∉ u) (j : Nat) (r2 : List Nat)
    (hj : j < u.length + 2) :
    getLine ⟨(u ++ [13, 10]).take j, r2⟩ = .error .incomplete := by
  rcases Nat.lt_or_ge j (u.length + 1) with hle | hgt
  · have htake : (u ++ [13, 10]).take j = u.take j := by
      rw [List.take_append_eq_append_take]
      have hz : j - u.length = 0 := by omega
      simp [hz]
    rw [htake]
    rcases Nat.eq_zero_or_pos j with hz | hpos
    · subst hz
      simp only [List.take_zero]
      unfold getLine
      rw [getUntil_nil]
    · have hmem : (13 : Nat) ∉ u.take j := fun hm => h13 (List.take_subset j u hm)
      have hne : u.take j ≠ [] := by
        intro hnil
        have := congrArg List.length hnil
        simp only [List.length_take, List.length_nil] at this
        omega
      unfold getLine
      rw [getUntil_not_mem r2 hne hmem]
      dsimp only
      rw [getU8_nil]
  · have hj1 : j = u.length + 1 := by omega
    subst hj1
    have htake : (u ++ [13, 10]).take (u.length + 1) = u ++ [13] := by
      rw [List.take_append_eq_append_take]
      simp
    rw [htake]
    unfold getLine
    have hfnd := getUntil_found (c := 13) (u := u) [] r2 h13
    simp only [List.append_nil] at hfnd
    rw [hfnd]
    dsimp only
    rw [getU8_nil]

theorem readHeaders_bounded_inv (n : Nat) :
    ∀ (s s' : PState), s.rem.length ≤ n → readHeaders s = .ok s' →
      ∃ cs, s.rem = cs ++ s'.rem ∧ s'.raw = s.raw ++ cs
        ∧ (∀ ys r2, readHeaders ⟨cs ++ ys, r2⟩ = .ok ⟨ys, r2 ++ cs⟩)
        ∧ (∀ j r2, j < cs.length → readHeaders ⟨cs.take j, r2⟩ = .error .incomplete) := by
  induction n with
  | zero =>
    intro s s' hlen h
    have hnil : s.rem = [] := by
      cases hs : s.rem with
      | nil => rfl
      | cons b t => rw [hs] at hlen; simp at hlen
    rw [readHeaders] at h
    split at h
    · exact absurd h (by simp)
    · rename_i ls hls
      obtain ⟨-, hrem, -⟩ := getLine_ok_inv hls
      rw [hnil] at hrem
      exact absurd hrem.symm (by simp)
  | succ m ih =>
    intro s s' hlen h
    rw [readHeaders] at h
    split at h
    · exact absurd h (by simp)
    · rename_i ls hls
      obtain ⟨hmem, hrem, hraw⟩ := getLine_ok_inv hls
      split at h
      · rename_i hempty
        have hu : ls.1 = [] := List.length_eq_zero.mp hempty
        simp only [Except.ok.injEq] at h
        subst h
        refine ⟨[13, 10], ?_, ?_, ?_, ?_⟩
        · rw [hrem, hu]; rfl
        · rw [hraw, hu]; simp
        · intro ys r2
          rw [readHeaders]
          have hline : getLine ⟨[13, 10] ++ ys, r2⟩ = .ok ([], ⟨ys, r2 ++ [13, 10]⟩) := by
            have h0 := getLine_eq (u := []) ys r2 (by simp)
            simpa using h0
          rw [hline]
          simp
        · intro j r2 hj
          rw [readHeaders]
          have hline := getLine_short (u := []) (by simp) j r2 (by simpa using hj)
          simp only [List.nil_append] at hline
          rw [hline]
      · rename_i hnonempty
        have hchild : ls.2.rem.length ≤ m := by
          have := getLine_rem_lt hls
          omega
        obtain ⟨cs', hrem', hraw', hext', hshort'⟩ := ih ls.2 s' hchild h
        refine ⟨ls.1 ++ [13, 10] ++ cs', ?_, ?_, ?_, ?_⟩
        · rw [hrem, hrem']
          simp
        · rw [hraw', hraw]
          simp
        · intro ys r2
          rw [readHeaders]
          have hline : getLine ⟨(ls.1 ++ [13, 10] ++ cs') ++ ys, r2⟩
              = .ok (ls.1, ⟨cs' ++ ys, r2 ++ ls.1 ++ [13, 10]⟩) := by
            have h0 := getLine_eq (u := ls.1) (cs' ++ ys) r2 hmem
            have harr : ls.1 ++ 13 :: 10 :: (cs' ++ ys)
                = (ls.1 ++ [13, 10] ++ cs') ++ ys := by simp
            rw [harr] at h0
            exact h0
          rw [hline]
          dsimp only
          rw [if_neg hnonempty]
          rw [hext' ys (r2 ++ ls.1 ++ [13, 10])]
          simp
        · intro j r2 hj
          have hcslen : (ls.1 ++ [13, 10] ++ cs').length = ls.1.length + 2 + cs'.length := by
            simp only [List.length_append, List.length_cons, List.length_nil]
            try omega
          rcases Nat.lt_or_ge j (ls.1.length + 2) with hsmall | hbig
          · have htake : (ls.1 ++ [13, 10] ++ cs').take j = (ls.1 ++ [13, 10]).take j := by
              rw [List.take_append_eq_append_take]
              have hz : j - (ls.1 ++ [13, 10]).length = 0 := by
                simp only [List.length_append, List.length_cons, List.length_nil]
                try omega
              rw [hz, List.take_zero, List.append_nil]
            rw [htake]
            rw [readHeaders]
            have hline := getLine_short hmem j r2 hsmall
            rw [hline]
          · have htake : (ls.1 ++ [13, 10] ++ cs').take j
                = ls.1 ++ [13, 10] ++ cs'.take (j - (ls.1.length + 2)) := by
              rw [List.take_append_eq_append_take]
              have hfull : (ls.1 ++ [13, 10]).take j = ls.1 ++ [13, 10] := by
                apply List.take_of_length_le
                simp only [List.length_append, List.length_cons, List.length_nil]
                try omega
              rw [hfull]
              have hidx : j - (ls.1 ++ [13, 10]).length = j - (ls.1.length + 2) := by
                simp only [List.length_append, List.length_cons, List.length_nil]
                try omega
              rw [hidx]
            rw [htake]
            rw [readHeaders]
            have hline : getLine ⟨ls.1 ++ [13, 10] ++ cs'.take (j - (ls.1.length + 2)), r2⟩
                = .ok (ls.1, ⟨cs'.take (j - (ls.1.length + 2)), r2 ++ ls.1 ++ [13, 10]⟩) := by
              have h0 := getLine_eq (u := ls.1) (cs'.take (j - (ls.1.length + 2))) r2 hmem
              have harr : ls.1 ++ 13 :: 10 :: cs'.take (j - (ls.1.length + 2))
                  = ls.1 ++ [13, 10] ++ cs'.take (j - (ls.1.length + 2)) := by simp
              rw [harr] at h0
              exact h0
            rw [hline]
            dsimp only
            rw [if_neg hnonempty]
            apply hshort'
            rw [hcslen] at hj
            omega

theorem readHeaders_ok_inv {s s' : PState} (h : readHeaders s = .ok s') :
    ∃ cs, s.rem = cs ++ s'.rem ∧ s'.raw = s.raw ++ cs
      ∧ (∀ ys r2, readHeaders ⟨cs ++ ys, r2⟩ = .ok ⟨ys, r2 ++ cs⟩)
      ∧ (∀ j r2, j < cs.length → readHeaders ⟨cs.take j, r2⟩ = .error .incomplete) :=
  readHeaders_bounded_inv s.rem.length s s' le_rfl h

theorem parseAuth_ok_inv {s : PState} {a : AuthReq} {s' : PState}
    (h : parseAuth s = .ok (a, s')) :
    s.rem = (a.methods.length :: a.methods) ++ s'.rem
      ∧ s'.raw = s.raw ++ (a.methods.length :: a.methods) := by
  unfold parseAuth at h
  split at h
  · exact absurd h (by simp)
  · rename_i nm s1 h8
    split at h
    · exact absurd h (by simp)
    · rename_i ms s2 hbytes
      simp only [Except.ok.injEq, Prod.mk.injEq] at h
      obtain ⟨ha, hs⟩ := h
      subst hs
      obtain ⟨hrem8, hraw8⟩ := getU8_ok_inv h8
      obtain ⟨hlen, hremB, hrawB⟩ := getNBytes_ok_inv hbytes
      have hm : a.methods = ms := by rw [← ha]
      subst hm
      constructor
      · rw [hrem8, hremB, hlen]
        simp
      · rw [hrawB, hraw8, hlen]
        simp

theorem parseReqV4_ok_inv {s : PState} {r : Request} {s' : PState}
    (h : parseReqV4 s = .ok (r, s')) :
    r.ver = .v4 ∧ r.a_type = .ipv4 ∧ (∃ ip, r.dst_addr = some (.v4 ip))
      ∧ r.dst_domain = none ∧ r.raw = s'.raw
      ∧ (∃ cs, s.rem = cs ++ s'.rem ∧ s'.raw = s.raw ++ cs) := by
  unfold parseReqV4 at h
  split at h
  · exact absurd h (by simp)
  · rename_i nCmd s1 h8
    split at h
    · exact absurd h (by simp)
    · rename_i cmd hcmd
      split at h
      · exact absurd h (by simp)
      · rename_i port s2 h16
        split at h
        · exact absurd h (by simp)
        · rename_i ipv4 s3 h32
          split at h
          · exact absurd h (by simp)
          · rename_i userId s4 huntil
            split at h
            · exact absurd h (by simp)
            · rename_i last hlast
              split at h
              · exact absurd h (by simp)
              · rename_i hlz
                simp only [Except.ok.injEq, Prod.mk.injEq] at h
                obtain ⟨hr, hs⟩ := h
                subst hs
                obtain ⟨hrem8, hraw8⟩ := getU8_ok_inv h8
                obtain ⟨b0, b1, hrem16, -, hraw16⟩ := getU16_ok_inv h16
                obtain ⟨c0, c1, c2, c3, hrem32, -, hraw32⟩ := getU32_ok_inv h32
                obtain ⟨hremU, hrawU, -, -⟩ := getUntil_ok_inv huntil
                refine ⟨by rw [← hr], by rw [← hr], ⟨ipv4, by rw [← hr]⟩,
                  by rw [← hr], by rw [← hr],
                  ⟨nCmd :: b0 :: b1 :: c0 :: c1 :: c2 :: c3 :: userId, ?_, ?_⟩⟩
                · rw [hrem8, hrem16, hrem32, hremU]
                  simp
                · rw [hrawU, hraw32, hraw16, hraw8]
                  simp

theorem getAddr_ok_inv {s : PState} {oip : Option IpAddr} {od : Option (List Nat)}
    {t : AType} {s' : PState} (h : getAddr s = .ok ((oip, od, t), s')) :
    ((∃ ip, oip = some ip ∧ od = none) ∨ (oip = none ∧ ∃ dbs, od = some dbs))
      ∧ (∃ cs, s.rem = cs ++ s'.rem ∧ s'.raw = s.raw ++ cs) := by
  unfold getAddr at h
  split at h
  · exact absurd h (by simp)
  · rename_i tb s1 h8
    obtain ⟨hrem8, hraw8⟩ := getU8_ok_inv h8
    split at h
    · -- a_type = 1 : IPv4
      split at h
      · exact absurd h (by simp)
      · rename_i ip s2 h32
        simp only [Except.ok.injEq, Prod.mk.injEq] at h
        obtain ⟨⟨hip, hdm, -⟩, hs⟩ := h
        subst hs
        obtain ⟨c0, c1, c2, c3, hrem32, -, hraw32⟩ := getU32_ok_inv h32
        refine ⟨.inl ⟨.v4 ip, hip.symm, hdm.symm⟩,
          ⟨tb :: c0 :: c1 :: c2 :: c3 :: [], ?_, ?_⟩⟩
        · rw [hrem8, hrem32]; simp
        · rw [hraw32, hraw8]; simp
    · split at h
      · -- a_type = 3 : domain
        split at h
        · exact absurd h (by simp)
        · rename_i aLen s2 h8b
          split at h
          · exact absurd h (by simp)
          · rename_i bs s3 hbytes
            split at h
            · rename_i hutf
              simp only [Except.ok.injEq, Prod.mk.injEq] at h
              obtain ⟨⟨hip, hdm, -⟩, hs⟩ := h
              subst hs
              obtain ⟨hrem8b, hraw8b⟩ := getU8_ok_inv h8b
              obtain ⟨-, hremB, hrawB⟩ := getNBytes_ok_inv hbytes
              refine ⟨.inr ⟨hip.symm, bs, hdm.symm⟩, ⟨tb :: aLen :: bs, ?_, ?_⟩⟩
              · rw [hrem8, hrem8b, hremB]; simp
              · rw [hrawB, hraw8b, hraw8]; simp
            · exact absurd h (by simp)
      · split at h
        · -- a_type = 4 : IPv6
          split at h
          · exact absurd h (by simp)
          · rename_i ip s2 h128
            simp only [Except.ok.injEq, Prod.mk.injEq] at h
            obtain ⟨⟨hip, hdm, -⟩, hs⟩ := h
            subst hs
            obtain ⟨-, hrem128, -, hraw128, -⟩ := getU128_ok_inv h128
            refine ⟨.inl ⟨.v6 ip, hip.symm, hdm.symm⟩, ⟨tb :: s1.rem.take 16, ?_, ?_⟩⟩
            · rw [hrem8]
              nth_rewrite 1 [hrem128]
              simp
            · rw [hraw128, hraw8]; simp
        · exact absurd h (by simp)

theorem parseReqV5_ok_inv {s : PState} {r : Request} {s' : PState}
    (h : parseReqV5 s = .ok (r, s')) :
    r.ver = .v5 ∧ r.raw = s'.raw
      ∧ ((∃ ip, r.dst_addr = some ip ∧ r.dst_domain = none)
          ∨ (r.dst_addr = none ∧ ∃ dbs, r.dst_domain = some dbs))
      ∧ (∃ cs, s.rem = cs ++ s'.rem ∧ s'.raw = s.raw ++ cs) := by
  unfold parseReqV5 at h
  split at h
  · exact absurd h (by simp)
  · rename_i nCmd s1 h8
    split at h
    · exact absurd h (by simp)
    · rename_i cmd hcmd
      split at h
      · exact absurd h (by simp)
      · rename_i rsv s2 h8b
        split at h
        · exact absurd h (by simp)
        · rename_i oip od t s3 haddr
          split at h
          · exact absurd h (by simp)
          · rename_i port s4 h16
            simp only [Except.ok.injEq, Prod.mk.injEq] at h
            obtain ⟨hr, hs⟩ := h
            subst hs
            obtain ⟨hrem8, hraw8⟩ := getU8_ok_inv h8
            obtain ⟨hrem8b, hraw8b⟩ := getU8_ok_inv h8b
            obtain ⟨hxor, csA, hremA, hrawA⟩ := getAddr_ok_inv haddr
            obtain ⟨b0, b1, hrem16, -, hraw16⟩ := getU16_ok_inv h16
            refine ⟨by rw [← hr], by rw [← hr], ?_, ?_⟩
            · rcases hxor with ⟨ip, hip, hdm⟩ | ⟨hip, dbs, hdm⟩
              · exact .inl ⟨ip, by rw [← hr]; exact hip, by rw [← hr]; exact hdm⟩
              · exact .inr ⟨by rw [← hr]; exact hip, dbs, by rw [← hr]; exact hdm⟩
            · refine ⟨nCmd :: rsv :: csA ++ [b0, b1], ?_, ?_⟩
              · rw [hrem8, hrem8b, hremA, hrem16]
                simp
              · rw [hraw16, hrawA, hraw8b, hraw8]
                simp

theorem parseReqHttpConnect_ok_inv {up : List Nat → Option UrlParsed}
    {s : PState} {r : Request} {s' : PState}
    (h : parseReqHttpConnect up s = .ok (r, s')) :
    r.ver = .http ∧ r.raw = s'.raw
      ∧ ((∃ ip, r.dst_addr = some ip ∧ r.dst_domain = none)
          ∨ (r.dst_addr = none ∧ ∃ dbs, r.dst_domain = some dbs))
      ∧ (∃ cs, s.rem = cs ++ s'.rem ∧ s'.raw = s.raw ++ cs) := by
  unfold parseReqHttpConnect at h
  split at h
  · exact absurd h (by simp)
  · rename_i line s1 hline
    split at h
    · exact absurd h (by simp)
    · rename_i s2 hheaders
      obtain ⟨-, hremL, hrawL⟩ := getLine_ok_inv hline
      obtain ⟨cs2, hremH, hrawH, -, -⟩ := readHeaders_ok_inv hheaders
      have hcons : s.rem = (line ++ [13, 10] ++ cs2) ++ s2.rem
          ∧ s2.raw = s.raw ++ (line ++ [13, 10] ++ cs2) := by
        constructor
        · rw [hremL, hremH]; simp
        · rw [hrawH, hrawL]; simp
      split at h
      · rename_i p0 p1 p2 hsplit
        split at h
        · exact absurd h (by simp)
        · split at h
          · exact absurd h (by simp)
          · rename_i u hurl
            split at h
            · exact absurd h (by simp)
            · rename_i ip hhost
              simp only [Except.ok.injEq, Prod.mk.injEq] at h
              obtain ⟨hr, hs⟩ := h
              subst hs
              exact ⟨by rw [← hr], by rw [← hr], .inl ⟨.v4 ip, by rw [← hr], by rw [← hr]⟩,
                ⟨line ++ [13, 10] ++ cs2, hcons.1, hcons.2⟩⟩
            · rename_i ip hhost
              simp only [Except.ok.injEq, Prod.mk.injEq] at h
              obtain ⟨hr, hs⟩ := h
              subst hs
              exact ⟨by rw [← hr], by rw [← hr], .inl ⟨.v6 ip, by rw [← hr], by rw [← hr]⟩,
                ⟨line ++ [13, 10] ++ cs2, hcons.1, hcons.2⟩⟩
            · rename_i dm hhost
              simp only [Except.ok.injEq, Prod.mk.injEq] at h
              obtain ⟨hr, hs⟩ := h
              subst hs
              exact ⟨by rw [← hr], by rw [← hr], .inr ⟨by rw [← hr], dm, by rw [← hr]⟩,
                ⟨line ++ [13, 10] ++ cs2, hcons.1, hcons.2⟩⟩
      · exact absurd h (by simp)

theorem parseReq_ok_req_inv {up : List Nat → Option UrlParsed} {auth : Bool}
    {s : PState} {r : Request} {s' : PState}
    (h : parseReq up auth s = .ok (.req r, s')) :
    r.raw = s'.raw ∧ (∃ cs, s.rem = cs ++ s'.rem ∧ s'.raw = s.raw ++ cs)
      ∧ ((∃ ip, r.dst_addr = some ip ∧ r.dst_domain = none)
          ∨ (r.dst_addr = none ∧ ∃ dbs, r.dst_domain = some dbs))
      ∧ (r.ver = .v4 → r.a_type = .ipv4 ∧ ∃ a, r.dst_addr = some (.v4 a)) := by
  unfold parseReq at h
  split at h
  · exact absurd h (by simp)
  · rename_i nVer s1 h8
    obtain ⟨hrem8, hraw8⟩ := getU8_ok_inv h8
    have hcons1 : ∀ cs : List Nat, s1.rem = cs ++ s'.rem → s'.raw = s1.raw ++ cs →
        ∃ cs', s.rem = cs' ++ s'.rem ∧ s'.raw = s.raw ++ cs' := by
      intro cs hc1 hc2
      exact ⟨nVer :: cs, by rw [hrem8, hc1]; simp, by rw [hc2, hraw8]; simp⟩
    split at h
    · -- version byte 4
      split at h
      · exact absurd h (by simp)
      · rename_i rq s2 hv4
        simp only [Except.ok.injEq, Prod.mk.injEq, ReqFrame.req.injEq] at h
        obtain ⟨hr, hs⟩ := h
        subst hs
        subst hr
        obtain ⟨hver, hat, ⟨a, hip⟩, hdm, hraw, cs, hc1, hc2⟩ := parseReqV4_ok_inv hv4
        exact ⟨hraw, hcons1 cs hc1 hc2, .inl ⟨.v4 a, hip, hdm⟩,
          fun _ => ⟨hat, a, hip⟩⟩
    · split at h
      · split at h
        · -- auth frame: contradiction with .req
          split at h
          · exact absurd h (by simp)
          · simp at h
        · split at h
          · exact absurd h (by simp)
          · rename_i rq s2 hv5
            simp only [Except.ok.injEq, Prod.mk.injEq, ReqFrame.req.injEq] at h
            obtain ⟨hr, hs⟩ := h
            subst hs
            subst hr
            obtain ⟨hver, hraw, hxor, cs, hc1, hc2⟩ := parseReqV5_ok_inv hv5
            exact ⟨hraw, hcons1 cs hc1 hc2, hxor, fun hv => by rw [hver] at hv; cases hv⟩
      · split at h
        · split at h
          · exact absurd h (by simp)
          · rename_i rq s2 hhttp
            simp only [Except.ok.injEq, Prod.mk.injEq, ReqFrame.req.injEq] at h
            obtain ⟨hr, hs⟩ := h
            subst hs
            subst hr
            obtain ⟨hver, hraw, hxor, cs, hc1, hc2⟩ := parseReqHttpConnect_ok_inv hhttp
            exact ⟨hraw, hcons1 cs hc1 hc2, hxor, fun hv => by rw [hver] at hv; cases hv⟩
        · exact absurd h (by simp)

/-- C1: for every byte sequence that the request parser accepts as a
frame yielding a `Request`, the request's `raw` field is byte-for-byte
the exact prefix of the input consumed for that frame, starting with
the leading dialect-selector byte: the input equals `raw` followed by
the unconsumed remainder, and for a complete frame (empty remainder,
which for HTTP CONNECT is reached only after the terminating blank
line) `raw` is the entire input. -/
theorem c1_raw_equals_consumed (up : List Nat → Option UrlParsed) (auth : Bool)
    (B : List Nat) (r : Request) (s' : PState)
    (h : parseBytes up auth B = .ok (.req r, s')) :
    B = r.raw ++ s'.rem ∧ (s'.rem = [] → r.raw = B) := by
  obtain ⟨hraw, ⟨cs, hc1, hc2⟩, -, -⟩ := parseReq_ok_req_inv h
  simp only [List.nil_append] at hc2
  have hB : B = r.raw ++ s'.rem := by
    rw [hraw, hc2]
    exact hc1
  exact ⟨hB, fun hnil => by rw [hB, hnil, List.append_nil]⟩

/-- The SOCKS4 CONNECT frame from the repository's own test
`parse_v4_that_completed`. -/
def v4Frame : List Nat := [4, 1, 34, 195, 192, 168, 1, 1, 0]

/-- The request that `v4Frame` parses to. -/
def v4Req : Request :=
  { ver := .v4, cmd := .connect, rsv := 0, dst_domain := none,
    dst_addr := some (.v4 3232235777), dst_port := 8899,
    a_type := .ipv4, raw := v4Frame }

/-- Closed instance of C1 at the repository's SOCKS4 test vector. -/
theorem c1_raw_equals_consumed_witness :
    v4Frame = v4Req.raw ++ ([] : List Nat) :=
  (c1_raw_equals_consumed (fun _ => none) true v4Frame v4Req ⟨[], v4Frame⟩
    (by decide)).1

/-- C9: every `Request` the parser returns has exactly one of
`dst_addr` and `dst_domain` populated — the SOCKS4 path and the SOCKS5
`a_type` 1 and 4 paths set only `dst_addr`, the SOCKS5 `a_type` 3 path
sets only `dst_domain`, and the HTTP CONNECT parser sets exactly one of
them from the parsed host or fails. -/
theorem c9_exactly_one_destination (up : List Nat → Option UrlParsed) (auth : Bool)
    (B : List Nat) (r : Request) (s' : PState)
    (h : parseBytes up auth B = .ok (.req r, s')) :
    (∃ ip, r.dst_addr = some ip ∧ r.dst_domain = none)
      ∨ (r.dst_addr = none ∧ ∃ dbs, r.dst_domain = some dbs) :=
  (parseReq_ok_req_inv h).2.2.1

/-- Closed instance of C9 at the repository's SOCKS4 test vector. -/
theorem c9_exactly_one_destination_witness :
    (∃ ip, v4Req.dst_addr = some ip ∧ v4Req.dst_domain = none)
      ∨ (v4Req.dst_addr = none ∧ ∃ dbs, v4Req.dst_domain = some dbs) :=
  c9_exactly_one_destination (fun _ => none) true v4Frame v4Req ⟨[], v4Frame⟩
    (by decide)

/-- C10: every parser-produced `Request` with dialect `V4` carries
`dst_addr = some IPv4` (never `none`, never IPv6) and `a_type = Ipv4`,
so the SOCKS4 arm of `Reply::successful` (selected by
`reply.set_ver(req.ver)`) always takes its IPv4 branch: the `unwrap`
cannot panic and the success reply always contains the 4-byte address
field. -/
theorem c10_v4_requests_reply_safely (up : List Nat → Option UrlParsed) (auth : Bool)
    (B : List Nat) (r : Request) (s' : PState) (p : Nat)
    (h : parseBytes up auth B = .ok (.req r, s')) (hver : r.ver = .v4) :
    ∃ a, r.dst_addr = some (.v4 a) ∧ r.a_type = .ipv4
      ∧ replySuccessful r.ver (r.a_type, r.dst_addr, r.dst_domain) p
          = .ok ⟨[], [0, 90] ++ u16be p ++ u32be a⟩ := by
  obtain ⟨-, -, -, hv4⟩ := parseReq_ok_req_inv h
  obtain ⟨hat, a, hip⟩ := hv4 hver
  refine ⟨a, hip, hat, ?_⟩
  rw [hver, hat, hip]
  rfl

/-- Closed instance of C10 at the repository's SOCKS4 test vector. -/
theorem c10_v4_requests_reply_safely_witness :
    ∃ a, v4Req.dst_addr = some (.v4 a) ∧ v4Req.a_type = .ipv4
      ∧ replySuccessful v4Req.ver (v4Req.a_type, v4Req.dst_addr, v4Req.dst_domain) 8899
          = .ok ⟨[], [0, 90] ++ u16be 8899 ++ u32be a⟩ :=
  c10_v4_requests_reply_safely (fun _ => none) true v4Frame v4Req ⟨[], v4Frame⟩
    8899 (by decide) rfl

theorem take_append_ge {α : Type} (l m : List α) {j : Nat} (h : l.length ≤ j) :
    (l ++ m).take j = l ++ m.take (j - l.length) := by
  rw [List.take_append_eq_append_take, List.take_of_length_le h]

theorem parseAuth_px {s : PState} {a : AuthReq} {s' : PState}
    (h : parseAuth s = .ok (a, s')) (hfin : s'.rem = []) :
    ∀ j r2, j < s.rem.length → parseAuth ⟨s.rem.take j, r2⟩ = .error .incomplete := by
  obtain ⟨hrem, -⟩ := parseAuth_ok_inv h
  rw [hfin, List.append_nil] at hrem
  intro j r2 hj
  rw [hrem] at hj
  rw [hrem]
  match j with
  | 0 =>
    simp only [List.take_zero]
    unfold parseAuth
    rw [getU8_nil]
  | i + 1 =>
    simp only [List.length_cons, Nat.add_lt_add_iff_right] at hj
    simp only [List.take_succ_cons]
    unfold parseAuth
    rw [getU8_cons]
    dsimp only
    rw [getNBytes_short _ (by simp only [List.length_take]; omega)]

theorem parseReqV4_px {s : PState} {r : Request} {s' : PState}
    (h : parseReqV4 s = .ok (r, s')) (hfin : s'.rem = []) :
    ∀ j r2, j < s.rem.length → parseReqV4 ⟨s.rem.take j, r2⟩ = .error .incomplete := by
  unfold parseReqV4 at h
  split at h
  · exact absurd h (by simp)
  · rename_i nCmd s1 h8
    split at h
    · exact absurd h (by simp)
    · rename_i cmd hcmd
      split at h
      · exact absurd h (by simp)
      · rename_i port s2 h16
        split at h
        · exact absurd h (by simp)
        · rename_i ipv4 s3 h32
          split at h
          · exact absurd h (by simp)
          · rename_i userId s4 huntil
            split at h
            · exact absurd h (by simp)
            · rename_i last hlast
              split at h
              · exact absurd h (by simp)
              · rename_i hlz
                simp only [ne_eq, Decidable.not_not] at hlz
                subst hlz
                -- the final state is s4
                have hs4 : s4.rem = [] := by
                  simp only [Except.ok.injEq, Prod.mk.injEq] at h
                  rw [h.2]
                  exact hfin
                obtain ⟨hrem8, -⟩ := getU8_ok_inv h8
                obtain ⟨b0, b1, hrem16, -, -⟩ := getU16_ok_inv h16
                obtain ⟨c0, c1, c2, c3, hrem32, -, -⟩ := getU32_ok_inv h32
                obtain ⟨hremU, -, hUne, hstruct⟩ := getUntil_ok_inv huntil
                have huser : ∃ w, userId = w ++ [0] ∧ (0 : Nat) ∉ w := by
                  rcases hstruct with ⟨w, hw, hwm⟩ | ⟨hnm, -⟩
                  · exact ⟨w, hw, hwm⟩
                  · exact absurd (List.mem_of_mem_getLast? hlast) hnm
                obtain ⟨w, hw, hwm⟩ := huser
                rw [hs4, List.append_nil] at hremU
                subst hw
                have hsrem : s.rem = nCmd :: b0 :: b1 :: c0 :: c1 :: c2 :: c3 :: (w ++ [0]) := by
                  rw [hrem8, hrem16, hrem32, hremU]
                intro j r2 hj
                rw [hsrem] at hj
                simp only [List.length_cons, List.length_append, List.length_nil] at hj
                rw [hsrem]
                match hj0 : j with
                | 0 =>
                  simp only [List.take_zero]
                  unfold parseReqV4
                  rw [getU8_nil]
                | 1 =>
                  simp only [List.take_succ_cons, List.take_zero]
                  unfold parseReqV4
                  rw [getU8_cons]
                  dsimp only
                  rw [hcmd]
                  dsimp only
                  rw [getU16_short _ (by simp)]
                | 2 =>
                  simp only [List.take_succ_cons, List.take_zero]
                  unfold parseReqV4
                  rw [getU8_cons]
                  dsimp only
                  rw [hcmd]
                  dsimp only
                  rw [getU16_short _ (by simp)]
                | i + 3 =>
                  simp only [List.take_succ_cons]
                  unfold parseReqV4
                  rw [getU8_cons]
                  dsimp only
                  rw [hcmd]
                  dsimp only
                  rw [getU16_eq]
                  dsimp only
                  match hi0 : i with
                  | 0 =>
                    simp only [List.take_zero]
                    rw [getU32_short _ (by simp)]
                  | 1 =>
                    simp only [List.take_succ_cons, List.take_zero]
                    rw [getU32_short _ (by simp)]
                  | 2 =>
                    simp only [List.take_succ_cons, List.take_zero]
                    rw [getU32_short _ (by simp)]
                  | 3 =>
                    simp only [List.take_succ_cons, List.take_zero]
                    rw [getU32_short _ (by simp)]
                  | i2 + 4 =>
                    simp only [List.take_succ_cons]
                    rw [getU32_eq]
                    dsimp only
                    have hi2 : i2 ≤ w.length := by omega
                    rw [List.take_append_of_le_length hi2]
                    match hi3 : i2 with
                    | 0 =>
                      simp only [List.take_zero]
                      rw [getUntil_nil]
                    | i3 + 1 =>
                      have hne : w.take (i3 + 1) ≠ [] := by
                        intro hnil
                        have hlen := congrArg List.length hnil
                        simp only [List.length_take, List.length_nil] at hlen
                        omega
                      have hmem : (0 : Nat) ∉ w.take (i3 + 1) :=
                        fun hm => hwm (List.take_subset _ w hm)
                      rw [getUntil_not_mem _ hne hmem]
                      dsimp only
                      cases hlast2 : (w.take (i3 + 1)).getLast? with
                      | none =>
                        exact absurd (List.getLast?_eq_none_iff.mp hlast2) hne
                      | some x =>
                        have hx0 : x ≠ 0 := by
                          intro hx
                          subst hx
                          exact hmem (List.mem_of_mem_getLast? hlast2)
                        dsimp only
                        rw [if_pos hx0]

theorem getAddr_px {s : PState} {v : Option IpAddr × Option (List Nat) × AType}
    {s' : PState} (h : getAddr s = .ok (v, s')) (hsmall : s'.rem.length < 112) :
    ∃ cs, s.rem = cs ++ s'.rem
      ∧ (∀ ys r2, getAddr ⟨cs ++ ys, r2⟩ = .ok (v, ⟨ys, r2 ++ cs⟩))
      ∧ (∀ j r2, j < cs.length → getAddr ⟨cs.take j, r2⟩ = .error .incomplete) := by
  unfold getAddr at h
  split at h
  · exact absurd h (by simp)
  · rename_i tb s1 h8
    obtain ⟨hrem8, hraw8⟩ := getU8_ok_inv h8
    split at h
    · -- a_type byte is 1 : IPv4
      rename_i ht1
      subst ht1
      split at h
      · exact absurd h (by simp)
      · rename_i ip s2 h32
        obtain ⟨c0, c1, c2, c3, hrem32, hipv, hraw32⟩ := getU32_ok_inv h32
        simp only [Except.ok.injEq, Prod.mk.injEq] at h
        obtain ⟨hv, hs⟩ := h
        subst hs
        refine ⟨1 :: c0 :: c1 :: c2 :: c3 :: [], ?_, ?_, ?_⟩
        · rw [hrem8, hrem32]; simp
        · intro ys r2
          unfold getAddr
          simp only [List.cons_append, List.nil_append]
          rw [getU8_cons]
          dsimp only
          rw [if_pos rfl]
          have h32e := getU32_eq c0 c1 c2 c3 ys (r2 ++ [1])
          rw [h32e]
          dsimp only
          rw [← hv, hipv]
          simp
        · intro j r2 hj
          match hj0 : j with
          | 0 =>
            simp only [List.take_zero]
            unfold getAddr
            rw [getU8_nil]
          | i + 1 =>
            simp only [List.take_succ_cons]
            unfold getAddr
            rw [getU8_cons]
            dsimp only
            rw [if_pos rfl]
            have hlen : ((c0 :: c1 :: c2 :: c3 :: []).take i).length < 4 := by
              simp only [List.length_take]
              simp only [List.length_cons, List.length_nil] at hj ⊢
              omega
            rw [getU32_short _ hlen]
    · rename_i hn1
      split at h
      · -- a_type byte is 3 : domain
        rename_i ht3
        subst ht3
        split at h
        · exact absurd h (by simp)
        · rename_i aLen s2 h8b
          split at h
          · exact absurd h (by simp)
          · rename_i bs s3 hbytes
            split at h
            · rename_i hutf
              obtain ⟨hrem8b, hraw8b⟩ := getU8_ok_inv h8b
              obtain ⟨hblen, hremB, hrawB⟩ := getNBytes_ok_inv hbytes
              simp only [Except.ok.injEq, Prod.mk.injEq] at h
              obtain ⟨hv, hs⟩ := h
              subst hs
              refine ⟨3 :: aLen :: bs, ?_, ?_, ?_⟩
              · rw [hrem8, hrem8b, hremB]; simp
              · intro ys r2
                unfold getAddr
                simp only [List.cons_append]
                rw [getU8_cons]
                dsimp only
                rw [if_neg (by omega), if_pos rfl]
                rw [getU8_cons]
                dsimp only
                have hbe := getNBytes_eq bs ys (r2 ++ [3] ++ [aLen])
                rw [hblen] at hbe
                rw [hbe]
                dsimp only
                rw [if_pos hutf]
                rw [← hv]
                simp
              · intro j r2 hj
                match hj0 : j with
                | 0 =>
                  simp only [List.take_zero]
                  unfold getAddr
                  rw [getU8_nil]
                | 1 =>
                  simp only [List.take_succ_cons, List.take_zero]
                  unfold getAddr
                  rw [getU8_cons]
                  dsimp only
                  rw [if_neg (by omega), if_pos rfl]
                  rw [getU8_nil]
                | i + 2 =>
                  simp only [List.take_succ_cons]
                  unfold getAddr
                  rw [getU8_cons]
                  dsimp only
                  rw [if_neg (by omega), if_pos rfl]
                  rw [getU8_cons]
                  dsimp only
                  have hlen : (bs.take i).length < aLen := by
                    simp only [List.length_cons] at hj
                    simp only [List.length_take]
                    omega
                  rw [getNBytes_short _ hlen]
            · exact absurd h (by simp)
      · rename_i hn3
        split at h
        · -- a_type byte is 4 : IPv6 — impossible with a small final remainder
          split at h
          · exact absurd h (by simp)
          · rename_i ip s2 h128
            obtain ⟨-, -, -, -, hbig⟩ := getU128_ok_inv h128
            simp only [Except.ok.injEq, Prod.mk.injEq] at h
            obtain ⟨-, hs⟩ := h
            subst hs
            omega
        · exact absurd h (by simp)

theorem parseReqV5_px {s : PState} {r : Request} {s' : PState}
    (h : parseReqV5 s = .ok (r, s')) (hfin : s'.rem = []) :
    ∀ j r2, j < s.rem.length → parseReqV5 ⟨s.rem.take j, r2⟩ = .error .incomplete := by
  unfold parseReqV5 at h
  split at h
  · exact absurd h (by simp)
  · rename_i nCmd s1 h8
    split at h
    · exact absurd h (by simp)
    · rename_i cmd hcmd
      split at h
      · exact absurd h (by simp)
      · rename_i rsv s2 h8b
        split at h
        · exact absurd h (by simp)
        · rename_i oip od t s3 haddr
          split at h
          · exact absurd h (by simp)
          · rename_i port s4 h16
            have hs4 : s4.rem = [] := by
              simp only [Except.ok.injEq, Prod.mk.injEq] at h
              rw [h.2]
              exact hfin
            obtain ⟨hrem8, -⟩ := getU8_ok_inv h8
            obtain ⟨hrem8b, -⟩ := getU8_ok_inv h8b
            obtain ⟨b0, b1, hrem16, -, -⟩ := getU16_ok_inv h16
            rw [hs4] at hrem16
            have hsmall : s3.rem.length < 112 := by rw [hrem16]; simp
            obtain ⟨cs, hremA, hext, hshort⟩ := getAddr_px haddr hsmall
            have hsrem : s.rem = nCmd :: rsv :: (cs ++ [b0, b1]) := by
              rw [hrem8, hrem8b, hremA, hrem16]
            intro j r2 hj
            rw [hsrem] at hj
            simp only [List.length_cons, List.length_append, List.length_nil] at hj
            rw [hsrem]
            match hj0 : j with
            | 0 =>
              simp only [List.take_zero]
              unfold parseReqV5
              rw [getU8_nil]
            | 1 =>
              simp only [List.take_succ_cons, List.take_zero]
              unfold parseReqV5
              rw [getU8_cons]
              dsimp only
              rw [hcmd]
              dsimp only
              rw [getU8_nil]
            | i + 2 =>
              simp only [List.take_succ_cons]
              unfold parseReqV5
              rw [getU8_cons]
              dsimp only
              rw [hcmd]
              dsimp only
              rw [getU8_cons]
              dsimp only
              rcases Nat.lt_or_ge i cs.length with hlt | hge
              · rw [List.take_append_of_le_length (Nat.le_of_lt hlt)]
                rw [hshort i _ hlt]
              · rw [take_append_ge _ _ hge]
                rw [hext _ _]
                dsimp only
                have hlen : ([b0, b1].take (i - cs.length)).length < 2 := by
                  simp only [List.length_take]
                  simp only [List.length_cons, List.length_nil]
                  omega
                rw [getU16_short _ hlen]

theorem parseReqHttpConnect_px {up : List Nat → Option UrlParsed} {s : PState}
    {r : Request} {s' : PState}
    (h : parseReqHttpConnect up s = .ok (r, s')) (hfin : s'.rem = []) :
    ∀ j r2, j < s.rem.length →
      parseReqHttpConnect up ⟨s.rem.take j, r2⟩ = .error .incomplete := by
  unfold parseReqHttpConnect at h
  split at h
  · exact absurd h (by simp)
  · rename_i line s1 hline
    split at h
    · exact absurd h (by simp)
    · rename_i s2 hheaders
      have hs2 : s2.rem = [] := by
        split at h
        · rename_i p0 p1 p2 hsplit
          split at h
          · exact absurd h (by simp)
          · split at h
            · exact absurd h (by simp)
            · rename_i u hurl
              split at h
              · exact absurd h (by simp)
              · simp only [Except.ok.injEq, Prod.mk.injEq] at h
                rw [h.2]; exact hfin
              · simp only [Except.ok.injEq, Prod.mk.injEq] at h
                rw [h.2]; exact hfin
              · simp only [Except.ok.injEq, Prod.mk.injEq] at h
                rw [h.2]; exact hfin
        · exact absurd h (by simp)
      obtain ⟨hmem, hremL, -⟩ := getLine_ok_inv hline
      obtain ⟨cs2, hremH, -, -, hshort2⟩ := readHeaders_ok_inv hheaders
      rw [hs2, List.append_nil] at hremH
      have hsrem : s.rem = line ++ [13, 10] ++ cs2 := by
        rw [hremL, hremH]; simp
      intro j r2 hj
      rw [hsrem] at hj
      simp only [List.length_append, List.length_cons, List.length_nil] at hj
      rw [hsrem]
      rcases Nat.lt_or_ge j (line.length + 2) with hsmall | hbig
      · have htake : (line ++ [13, 10] ++ cs2).take j = (line ++ [13, 10]).take j :=
          List.take_append_of_le_length (by
            simp only [List.length_append, List.length_cons, List.length_nil]
            omega)
        rw [htake]
        unfold parseReqHttpConnect
        rw [getLine_short hmem j r2 hsmall]
      · have htake : (line ++ [13, 10] ++ cs2).take j
            = line ++ [13, 10] ++ cs2.take (j - (line.length + 2)) := by
          rw [take_append_ge _ _ (by
            simp only [List.length_append, List.length_cons, List.length_nil]
            omega)]
          have hidx : j - (line ++ [13, 10]).length = j - (line.length + 2) := by
            simp only [List.length_append, List.length_cons, List.length_nil]
            try omega
          rw [hidx]
        rw [htake]
        unfold parseReqHttpConnect
        have hlineEq : getLine ⟨line ++ [13, 10] ++ cs2.take (j - (line.length + 2)), r2⟩
            = .ok (line, ⟨cs2.take (j - (line.length + 2)), r2 ++ line ++ [13, 10]⟩) := by
          have h0 := getLine_eq (u := line) (cs2.take (j - (line.length + 2))) r2 hmem
          have harr : line ++ 13 :: 10 :: cs2.take (j - (line.length + 2))
              = line ++ [13, 10] ++ cs2.take (j - (line.length + 2)) := by simp
          rw [harr] at h0
          exact h0
        rw [hlineEq]
        dsimp only
        rw [hshort2 _ _ (by omega)]

/-- C2: for every byte sequence `B` that the parser accepts as a
complete frame (SOCKS4 request, SOCKS5 auth negotiation, SOCKS5
request, or HTTP CONNECT, i.e. a successful parse consuming all of
`B`), running the parser on any strict prefix `B.take k`, `k < |B|`,
yields exactly the `Incomplete` error — never a success and never any
other error. -/
theorem c2_prefix_incomplete (up : List Nat → Option UrlParsed) (auth : Bool)
    (B : List Nat) (f : ReqFrame) (s' : PState)
    (h : parseBytes up auth B = .ok (f, s')) (hfin : s'.rem = [])
    (k : Nat) (hk : k < B.length) :
    parseBytes up auth (B.take k) = .error .incomplete := by
  unfold parseBytes parseReq at h ⊢
  split at h
  · exact absurd h (by simp)
  · rename_i nVer s1 h8
    obtain ⟨hrem8, -⟩ := getU8_ok_inv h8
    have hB : B = nVer :: s1.rem := hrem8
    match hk0 : k with
    | 0 =>
      simp only [List.take_zero]
      rw [getU8_nil]
    | j + 1 =>
      have hj : j < s1.rem.length := by
        rw [hB] at hk
        simpa using hk
      rw [hB]
      simp only [List.take_succ_cons]
      rw [getU8_cons]
      dsimp only
      split at h
      · rename_i hn4
        rw [if_pos hn4]
        split at h
        · exact absurd h (by simp)
        · rename_i rq s2 hv4
          have hs2 : s2.rem = [] := by
            simp only [Except.ok.injEq, Prod.mk.injEq] at h
            rw [h.2]; exact hfin
          rw [parseReqV4_px hv4 hs2 j _ hj]
      · rename_i hn4
        rw [if_neg hn4]
        split at h
        · rename_i hn5
          rw [if_pos hn5]
          split at h
          · rename_i hauth
            rw [if_pos hauth]
            split at h
            · exact absurd h (by simp)
            · rename_i aq s2 hauthp
              have hs2 : s2.rem = [] := by
                simp only [Except.ok.injEq, Prod.mk.injEq] at h
                rw [h.2]; exact hfin
              rw [parseAuth_px hauthp hs2 j _ hj]
          · rename_i hauth
            rw [if_neg hauth]
            split at h
            · exact absurd h (by simp)
            · rename_i rq s2 hv5
              have hs2 : s2.rem = [] := by
                simp only [Except.ok.injEq, Prod.mk.injEq] at h
                rw [h.2]; exact hfin
              rw [parseReqV5_px hv5 hs2 j _ hj]
        · rename_i hn5
          rw [if_neg hn5]
          split at h
          · rename_i hn67
            rw [if_pos hn67]
            split at h
            · exact absurd h (by simp)
            · rename_i rq s2 hhttp
              have hs2 : s2.rem = [] := by
                simp only [Except.ok.injEq, Prod.mk.injEq] at h
                rw [h.2]; exact hfin
              rw [parseReqHttpConnect_px hhttp hs2 j _ hj]
          · rename_i hn67
            exact absurd h (by simp)

/-- Closed instance of C2: a 5-byte strict prefix of the repository's
9-byte SOCKS4 test frame parses to `Incomplete`. -/
theorem c2_prefix_incomplete_witness :
    parseBytes (fun _ => none) true (v4Frame.take 5) = .error .incomplete :=
  c2_prefix_incomplete (fun _ => none) true v4Frame (.req v4Req) ⟨[], v4Frame⟩
    (by decide) rfl 5 (by decide)

end Nexel
